import Mathlib

/-!
Verification of the terravision graph-enrichment engine against its
specification.  The driver (`terravision.py`) and the rule tables
(`modules/cloud_config.py`) are embedded directly from the source; the
engine stages living in `modules/graphmaker.py`, `modules/helpers.py` and
`modules/annotations.py` are not part of the provided sources and are
modelled from the specification where a claim depends on them (each such
definition carries a doc comment starting `Modelled from the spec:`).
-/

namespace Terravision

/-- The adjacency mapping of the GraphStore: a Python dict is embedded as an
insertion-ordered association list from node identifier to its list of
destination identifiers. -/
abbrev Graphdict := List (String × List String)

/-- Attribute mapping of one node (freeform key/value pairs). -/
abbrev Meta := List (String × String)

/-- The keys (node identifiers) of a graph dictionary, in order. -/
def gkeys (g : Graphdict) : List String := g.map Prod.fst

/-- The destination list stored under a node identifier (first entry wins,
as Python dict lookup does). -/
def succsOf (g : Graphdict) (n : String) : List String :=
  match g.find? (fun kv => kv.1 = n) with
  | some kv => kv.2
  | none => []

/-- Edge membership: some entry for `o` lists `d` as a destination. -/
def edgeMem (g : Graphdict) (o d : String) : Prop :=
  ∃ ds, (o, ds) ∈ g ∧ d ∈ ds

instance (g : Graphdict) (o d : String) : Decidable (edgeMem g o d) :=
  decidable_of_iff (∃ kv ∈ g, kv.1 = o ∧ d ∈ kv.2) (by
    constructor
    · rintro ⟨kv, hkv, h1, h2⟩
      exact ⟨kv.2, by simpa [← h1] using hkv, h2⟩
    · rintro ⟨ds, hmem, hd⟩
      exact ⟨(o, ds), hmem, rfl, hd⟩)

/-- All (origin, destination) pairs of the graph, in stored order. -/
def allEdges (g : Graphdict) : List (String × String) :=
  g.flatMap (fun kv => kv.2.map (fun d => (kv.1, d)))

/-- Invariant: node identifiers are unique (Python dicts guarantee this for
genuine dict data; it must be preserved by every stage). -/
def NodupKeys (g : Graphdict) : Prop := (gkeys g).Nodup

/-- Invariant: no repeated (origin, destination) pair inside one entry. -/
def NodupEdges (g : Graphdict) : Prop := ∀ kv ∈ g, kv.2.Nodup

/-- Invariant: every destination of every edge is itself a node of the
graph (no dangling edges). -/
def NoDangling (g : Graphdict) : Prop :=
  ∀ kv ∈ g, ∀ d ∈ kv.2, d ∈ gkeys g

/-- The §3 boundary invariants of the GraphStore, bundled. -/
def WF (g : Graphdict) : Prop := NodupKeys g ∧ NodupEdges g ∧ NoDangling g

instance (g : Graphdict) : Decidable (NodupKeys g) := by unfold NodupKeys; infer_instance

instance (g : Graphdict) : Decidable (NodupEdges g) := by unfold NodupEdges; infer_instance

instance (g : Graphdict) : Decidable (NoDangling g) := by unfold NoDangling; infer_instance

instance (g : Graphdict) : Decidable (WF g) := by unfold WF; infer_instance

/-- The tfdata dictionary threaded through the pipeline: the working graph,
the stored raw (unprocessed) graph, and the per-node attribute mappings. -/
structure TfData where
  graphdict : Graphdict
  original_graphdict : Graphdict
  meta_data : List (String × Meta)
deriving DecidableEq, Repr

/-! ## Rule tables, embedded from `src/modules/cloud_config.py` -/
/-- Table `AWS_CONSOLIDATED_NODES`: resource-name prefixes consolidated into one
canonical node, as (matching prefix, canonical resource_name) in declared
order. -/
def AWS_CONSOLIDATED_NODES : List (String × String) :=
  [("aws_route53", "aws_route53_record.route_53"),
   ("aws_cloudwatch", "aws_cloudwatch_log_group.cloudwatch"),
   ("aws_api_gateway", "aws_api_gateway_integration.gateway"),
   ("aws_acm", "aws_acm_certificate.acm"),
   ("aws_ssm_parameter", "aws_ssm_parameter.ssmparam"),
   ("aws_dx", "aws_dx_connection.directconnect"),
   ("aws_lb", "aws_lb.elb"),
   ("aws_ecs", "aws_ecs_service.ecs"),
   ("aws_internet_gateway", "aws_internet_gateway.igw"),
   ("aws_efs_file_system", "aws_efs_file_system.efs"),
   ("aws_kms", "aws_kms_key.kms"),
   ("aws_eip", "aws_eip.elastic_ip")]

/-- Table `AWS_GROUP_NODES`: group/container node types, in draw order. -/
def AWS_GROUP_NODES : List String :=
  ["aws_vpc", "aws_az", "aws_group", "aws_appautoscaling_target",
   "aws_subnet", "aws_security_group", "tv_aws_onprem"]

/-- Table `AWS_EDGE_NODES`: edge/ingress node types drawn inside the cloud but
outside subnets and VPCs. -/
def AWS_EDGE_NODES : List String :=
  ["aws_route53", "aws_cloudfront_distribution", "aws_internet_gateway",
   "aws_api_gateway", "aws_apigateway"]

/-- Table `AWS_OUTER_NODES`: node types outside the cloud boundary. -/
def AWS_OUTER_NODES : List String := ["tv_aws_users", "tv_aws_internet"]

/-- Table `AWS_DRAW_ORDER`: the fixed bucket precedence for the final node
enumeration; the trailing empty string bucket catches everything else.
The consolidated bucket is matched by the consolidation rules' prefixes. -/
def AWS_DRAW_ORDER : List (List String) :=
  [AWS_OUTER_NODES, AWS_EDGE_NODES, AWS_GROUP_NODES,
   AWS_CONSOLIDATED_NODES.map Prod.fst, [""]]

/-- One auto-annotation rule: synthetic links to add, destinations to
delete, and the arrow direction of the synthetic links. -/
structure AnnotationRule where
  link : List String
  del : List String
  arrow : String
deriving DecidableEq, Repr

/-- Table `AWS_AUTO_ANNOTATIONS`: prefixes where additional nodes are created
automatically, in declared order. -/
def AWS_AUTO_ANNOTATIONS : List (String × AnnotationRule) :=
  [("aws_route53", ⟨["tv_aws_users.users"], [], "reverse"⟩),
   ("aws_dx", ⟨["tv_aws_onprem.corporate_datacenter", "tv_aws_cgw.customer_gateway"], [], "forward"⟩),
   ("aws_internet_gateway", ⟨["tv_aws_internet.internet"], ["aws_nat_gateway."], "forward"⟩),
   ("aws_eks_cluster", ⟨["aws_eks_service.eks"], [], "reverse"⟩),
   ("aws_nat_gateway", ⟨["aws_internet_gateway.*"], [], "forward"⟩),
   ("aws_ecs_service", ⟨["aws_ecr_repository.ecr"], [], "forward"⟩),
   ("aws_eks_cluster", ⟨["aws_ecr_repository.ecr"], [], "forward"⟩),
   ("aws_ecs_", ⟨["aws_ecs_cluster.ecs"], [], "forward"⟩),
   ("aws_lambda", ⟨["aws_cloudwatch_log_group.cloudwatch"], [], "forward"⟩)]

/-- Table `AWS_NODE_VARIANTS`: per resource type, keyword-to-variant map in
declared key order. -/
def AWS_NODE_VARIANTS : List (String × List (String × String)) :=
  [("aws_ecs_service", [("FARGATE", "aws_fargate"), ("EC2", "aws_ec2ecs")]),
   ("aws_lb", [("application", "aws_alb"), ("network", "aws_nlb")]),
   ("aws_rds", [("aurora", "aws_rds_aurora"), ("mysql", "aws_rds_mysql"),
                ("postgres", "aws_rds_postgres")])]

/-- Table `AWS_REVERSE_ARROW_LIST`: resource prefixes whose edges get their arrow
direction reversed. -/
def AWS_REVERSE_ARROW_LIST : List String :=
  ["aws_route53", "aws_cloudfront", "aws_vpc.", "aws_subnet.",
   "aws_appautoscaling_target", "aws_iam_role.", "aws_rds_aurora"]

/-- Table `AWS_FORCED_DEST`: resources forced to be a destination only. -/
def AWS_FORCED_DEST : List String := ["aws_rds", "aws_instance"]

/-- Table `AWS_FORCED_ORIGIN`: resources forced to be an origin only. -/
def AWS_FORCED_ORIGIN : List String := ["aws_route53"]

/-- Table `AWS_IMPLIED_CONNECTIONS`: attribute names implying an edge to a
resource of the mapped type. -/
def AWS_IMPLIED_CONNECTIONS : List (String × String) :=
  [("certificate_arn", "aws_acm_certificate"),
   ("container_definitions", "aws_ecr_repository")]

/-- Table `AWS_SPECIAL_RESOURCES`: special resource prefixes bound to their
handler function names, in declared order (the source comments that the
security-group handler is placed after the db_subnet handler). -/
def AWS_SPECIAL_RESOURCES : List (String × String) :=
  [("aws_cloudfront_distribution", "aws_handle_cloudfront_pregraph"),
   ("aws_subnet", "aws_handle_subnet_azs"),
   ("aws_appautoscaling_target", "aws_handle_autoscaling"),
   ("aws_efs_file_system", "aws_handle_efs"),
   ("aws_db_subnet", "aws_handle_dbsubnet"),
   ("aws_security_group", "aws_handle_sg"),
   ("aws_lb", "aws_handle_lb"),
   ("aws_vpc_endpoint", "aws_handle_vpcendpoints"),
   ("aws_", "aws_handle_sharedgroup"),
   ("random_string", "random_string_handler")]

/-- Table `AWS_SHARED_SERVICES`: shared-service resource types. -/
def AWS_SHARED_SERVICES : List String :=
  ["aws_acm_certificate", "aws_cloudwatch_log_group", "aws_ecr_repository",
   "aws_ecs_cluster", "aws_efs_file_system", "aws_ssm_parameter",
   "aws_kms_key", "aws_eip"]

/-- Table `AWS_ALWAYS_DRAW_LINE`: resource types whose edges are always drawn
(the cycle-removal exception set). -/
def AWS_ALWAYS_DRAW_LINE : List String :=
  ["aws_lb", "aws_iam_role", "aws_volume_attachment", "aws_alb", "aws_nlb",
   "aws_efs_mount_target", "aws_ecs_service", "aws_rds_aurora",
   "aws_rds_mysql", "aws_rds_postgres"]

/-! ## Graph primitives

The engine stages below are built from a small set of primitive GraphStore
mutations, mirroring the spec's in-place mutation model (§3 lifecycle).
Each primitive preserves the §3 invariants. -/
/-- Add a node with an empty destination list if it is not present yet. -/
def ensureNode (n : String) (g : Graphdict) : Graphdict :=
  if n ∈ gkeys g then g else g ++ [(n, [])]

/-- Set-like edge insertion (§3 invariant 1): append `d` to the list of `o`
when not already present; a no-op when either endpoint is missing, per the
§7 recovery rule for data errors. -/
def addEdge (o d : String) (g : Graphdict) : Graphdict :=
  if o ∈ gkeys g ∧ d ∈ gkeys g then
    g.map (fun kv => if kv.1 = o ∧ d ∉ kv.2 then (kv.1, kv.2 ++ [d]) else kv)
  else g

/-- Remove the destination `d` from the list of `o`. -/
def removeEdge (o d : String) (g : Graphdict) : Graphdict :=
  g.map (fun kv => if kv.1 = o then (kv.1, kv.2.filter (fun x => x ≠ d)) else kv)

/-- Remove a node and every edge touching it. -/
def removeNode (n : String) (g : Graphdict) : Graphdict :=
  (g.filter (fun kv => kv.1 ≠ n)).map
    (fun kv => (kv.1, kv.2.filter (fun d => d ≠ n)))

/-- Remove every destination of `n` matched by `p`. -/
def removeDestsMatching (n : String) (p : String → Bool) (g : Graphdict) : Graphdict :=
  g.map (fun kv => if kv.1 = n then (kv.1, kv.2.filter (fun d => !(p d))) else kv)

/-- Drop duplicate destinations and destinations that are not nodes.
Modelled from the spec: §7 classifies edges referencing a nonexistent
identifier as data errors recovered locally by dropping them, and §3
invariant 1 makes edge storage set-like. -/
def sanitize (g : Graphdict) : Graphdict :=
  g.map (fun kv => (kv.1, (kv.2.filter (fun d => decide (d ∈ gkeys g))).dedup))

/-- Fuel-bounded worker for `mergeDupKeys` (structural recursion so the
kernel can evaluate it). -/
def mergeDupAux : Nat → Graphdict → Graphdict
  | 0, g => g
  | fuel + 1, g =>
    match g with
    | [] => []
    | kv :: rest =>
      (kv.1, (kv.2 ++ (rest.filter (fun kv2 => kv2.1 = kv.1)).flatMap Prod.snd).dedup)
        :: mergeDupAux fuel (rest.filter (fun kv2 => kv2.1 ≠ kv.1))

/-- Merge entries sharing one key into the first such entry, concatenating
and deduplicating their destination lists (how multiple raw nodes collapsing
to one canonical consolidation target deduplicate their edges, §4.2). -/
def mergeDupKeys (g : Graphdict) : Graphdict := mergeDupAux g.length g

/-- Prefix test on strings, via their character lists. -/
def strHasPrefix (p s : String) : Bool := p.toList.isPrefixOf s.toList

/-- Prefix-based identifier rewriting used by consolidation (§4.2). -/
def renameId (pfx tgt x : String) : String := if strHasPrefix pfx x then tgt else x

/-- Replace every node matching a consolidation prefix by the canonical
target identifier, in keys and destinations alike (§4.2). -/
def renameNodes (pfx tgt : String) (g : Graphdict) : Graphdict :=
  g.map (fun kv => (renameId pfx tgt kv.1, kv.2.map (renameId pfx tgt)))

/-- One consolidation rule application: rename then merge (§4.2). -/
def consolidateRule (g : Graphdict) (rule : String × String) : Graphdict :=
  mergeDupKeys (renameNodes rule.1 rule.2 g)

/-- Lexicographic comparison of character lists by code point, as Python
compares strings. -/
def charListLe : List Char → List Char → Bool
  | [], _ => true
  | _ :: _, [] => false
  | a :: as, b :: bs =>
    if a.toNat < b.toNat then true
    else if b.toNat < a.toNat then false
    else charListLe as bs

/-- Lexicographic string comparison by code point. -/
def strLe (a b : String) : Prop := charListLe a.toList b.toList = true

instance : DecidableRel strLe := fun a b =>
  inferInstanceAs (Decidable (charListLe a.toList b.toList = true))

def charListLe_total (as bs : List Char) :
    charListLe as bs = true ∨ charListLe bs as = true := by
  induction as generalizing bs with
  | nil => exact Or.inl rfl
  | cons a as ih =>
    cases bs with
    | nil => exact Or.inr rfl
    | cons b bs =>
      rcases Nat.lt_trichotomy a.toNat b.toNat with h | h | h
      · exact Or.inl (by simp [charListLe, h])
      · rcases ih bs with h2 | h2
        · exact Or.inl (by simp [charListLe, h, h2])
        · exact Or.inr (by simp [charListLe, h, h2])
      · exact Or.inr (by simp [charListLe, h])

def charListLe_trans (as bs cs : List Char)
    (h1 : charListLe as bs = true) (h2 : charListLe bs cs = true) :
    charListLe as cs = true := by
  induction as generalizing bs cs with
  | nil => rfl
  | cons a as ih =>
    cases bs with
    | nil => simp [charListLe] at h1
    | cons b bs =>
      cases cs with
      | nil => simp [charListLe] at h2
      | cons c cs =>
        by_cases hab : a.toNat < b.toNat <;> by_cases hbc : b.toNat < c.toNat
        all_goals by_cases hba : b.toNat < a.toNat <;> by_cases hcb : c.toNat < b.toNat
        all_goals simp [charListLe, hab, hbc, hba, hcb] at h1 h2 ⊢
        all_goals first
          | omega
          | (constructor <;> omega)
          | (refine Or.inr ⟨by omega, ?_⟩
             exact ih bs cs (by assumption) (by assumption))

instance : IsTotal String strLe := ⟨fun a b => charListLe_total a.toList b.toList⟩

instance : IsTrans String strLe :=
  ⟨fun a b c h1 h2 => charListLe_trans a.toList b.toList c.toList h1 h2⟩

/-- The key ordering used for deterministic sorting of graph entries
(Python sorts identifiers lexicographically). -/
def keyLe (a b : String × List String) : Prop := strLe a.1 b.1

instance : DecidableRel keyLe := fun a b => inferInstanceAs (Decidable (strLe a.1 b.1))

instance : IsTotal (String × List String) keyLe :=
  ⟨fun a b => charListLe_total a.1.toList b.1.toList⟩

instance : IsTrans (String × List String) keyLe :=
  ⟨fun _ _ _ h1 h2 => charListLe_trans _ _ _ h1 h2⟩

/-- Modelled from the spec: `helpers.sort_graphdict` (not part of the
provided sources) produces the final deterministic adjacency mapping with
sorted keys mapped to sorted destination lists (§6 persisted form, §2 final
deterministic sort). -/
def sort_graphdict (g : Graphdict) : Graphdict :=
  (g.map (fun kv => (kv.1, kv.2.insertionSort strLe))).insertionSort keyLe

/-! ## Textual matching helpers -/
/-- Substring test on character lists. -/
def listHasInfix (needle : List Char) : List Char → Bool
  | [] => needle.isEmpty
  | c :: rest => needle.isPrefixOf (c :: rest) || listHasInfix needle rest

/-- The needle string occurs inside the hay string. -/
def strContains (hay needle : String) : Bool := listHasInfix needle.toList hay.toList

/-- Lower-case a character's code point (ASCII case folding). -/
def lowerChar (c : Char) : Nat :=
  if 65 ≤ c.toNat ∧ c.toNat ≤ 90 then c.toNat + 32 else c.toNat

/-- Case-folded code points of a string. -/
def foldedChars (s : String) : List Nat := s.toList.map lowerChar

/-- Substring test on code-point lists. -/
def listHasInfixN (needle : List Nat) : List Nat → Bool
  | [] => needle.isEmpty
  | c :: rest => needle.isPrefixOf (c :: rest) || listHasInfixN needle rest

/-- Case-insensitive substring test (variant keyword matching, §4.4). -/
def strContainsCI (hay needle : String) : Bool :=
  listHasInfixN (foldedChars needle) (foldedChars hay)

/-- Decimal parser for cardinality attribute values. -/
def parseNatAux : List Char → Nat → Option Nat
  | [], acc => some acc
  | c :: rest, acc =>
    if 48 ≤ c.toNat ∧ c.toNat ≤ 57 then parseNatAux rest (acc * 10 + (c.toNat - 48))
    else none

/-- Parse a decimal natural number, as `int()` would for count values. -/
def parseNat (s : String) : Option Nat :=
  if s.toList.isEmpty then none else parseNatAux s.toList 0

/-- The identifier matches some type prefix in the list. -/
def matchesAny (l : List String) (n : String) : Bool := l.any (fun p => strHasPrefix p n)

/-! ## Engine stages

`modules/graphmaker.py`, `modules/helpers.py` and `modules/annotations.py`
are not part of the provided sources; each stage below is modelled from the
corresponding specification section, over the rule tables embedded from
`modules/cloud_config.py`. -/
/-- Edges implied by one attribute of one node, per the implied-connection
map. -/
def addImpliedForAttr (n : String) (attr : String × String) (g : Graphdict) : Graphdict :=
  match AWS_IMPLIED_CONNECTIONS.find? (fun ic => ic.1 = attr.1) with
  | some ic =>
    ((gkeys g).filter (fun m => strHasPrefix ic.2 m && strContains attr.2 m)).foldl
      (fun g2 m => addEdge n m g2) g
  | none => g

/-- Modelled from the spec: `graphmaker.add_relations` (§4.1
RelationBuilder) — for every node and every attribute registered in the
implied-connection map whose value textually matches another node, add the
implied edge; existing edges are never removed, raw edges referencing
nonexistent identifiers are dropped (§7 data errors) and storage is
set-like (§3 invariant 1). -/
def add_relations (t : TfData) : TfData :=
  { t with graphdict :=
      (t.meta_data.foldl
        (fun g nm => nm.2.foldl (fun g2 a => addImpliedForAttr nm.1 a g2) g)
        (sanitize t.graphdict)) }

/-- Modelled from the spec: `graphmaker.consolidate_nodes` (§4.2
Consolidator) — every consolidation rule replaces matching nodes by the
canonical target, redirecting and deduplicating edges. -/
def consolidate_nodes (t : TfData) : TfData :=
  { t with graphdict := AWS_CONSOLIDATED_NODES.foldl consolidateRule t.graphdict }

/-- A synthetic link edge honouring the rule's arrow direction. -/
def linkEdge (arrow n target : String) (g : Graphdict) : Graphdict :=
  if arrow = "reverse" then addEdge target n g else addEdge n target g

/-- One link target of an auto-annotation rule; a trailing `*` links the
node to every existing node matching the pattern head instead of creating
a new node. -/
def applyLinkTarget (arrow n target : String) (g : Graphdict) : Graphdict :=
  if target.toList.getLast? = some (Char.ofNat 42) then
    ((gkeys g).filter (fun m => strHasPrefix (String.mk target.toList.dropLast) m)).foldl
      (fun g2 m => linkEdge arrow n m g2) g
  else linkEdge arrow n target (ensureNode target g)

/-- One auto-annotation rule applied to every node matching its prefix. -/
def applyAnnotationRule (g : Graphdict) (rule : String × AnnotationRule) : Graphdict :=
  ((gkeys g).filter (fun n => strHasPrefix rule.1 n)).foldl
    (fun g2 n =>
      let g3 := rule.2.link.foldl (fun g4 L => applyLinkTarget rule.2.arrow n L g4) g2
      rule.2.del.foldl (fun g4 p => removeDestsMatching n (fun d => strHasPrefix p d) g4) g3)
    g

/-- Modelled from the spec: `annotations.add_annotations` — the
attribute-driven auto-annotation pass (link/delete/arrow rules keyed by
prefix, §4.3), evaluated in the rule table's declared order. -/
def add_annotations (t : TfData) : TfData :=
  { t with graphdict := AWS_AUTO_ANNOTATIONS.foldl applyAnnotationRule t.graphdict }

/-- Modelled from the spec: the handler that associates subnets with
availability zones (§4.3) — ensures an availability-zone group node and
assigns each subnet to it. -/
def aws_handle_subnet_azs (t : TfData) : TfData :=
  { t with graphdict :=
      (((gkeys t.graphdict).filter (fun n => strHasPrefix "aws_subnet" n)).foldl
        (fun g n =>
          addEdge "aws_az.availability_zone" n (ensureNode "aws_az.availability_zone" g))
        t.graphdict) }

/-- Modelled from the spec: the handler binding security groups to subnets
(§4.3) — reads the zone assignment left by `aws_handle_subnet_azs` and
binds each security group to the zone-assigned subnets. -/
def aws_handle_sg (t : TfData) : TfData :=
  { t with graphdict :=
      (((gkeys t.graphdict).filter (fun s => strHasPrefix "aws_security_group" s)).foldl
        (fun g s =>
          ((succsOf g "aws_az.availability_zone").filter
              (fun n => strHasPrefix "aws_subnet" n)).foldl
            (fun g2 n => addEdge n s g2) g)
        t.graphdict) }

/-- Modelled from the spec: dispatch from a bound handler name to its
graph surgery.  The spec describes concrete behaviour only for the
subnet/availability-zone and security-group handlers; the remaining bound
handlers perform resource-specific surgery the spec leaves unspecified and
are modelled as graph-preserving. -/
def dispatchHandler (hname : String) (t : TfData) : TfData :=
  if hname = "aws_handle_subnet_azs" then aws_handle_subnet_azs t
  else if hname = "aws_handle_sg" then aws_handle_sg t
  else t

/-- The special-resource binding table folded over an arbitrary state, in
declared order — the evaluation scheme of §4.3. -/
def applySpecialBindings {α : Type} (f : String × String → α → α) (a : α) : α :=
  AWS_SPECIAL_RESOURCES.foldl (fun acc e => f e acc) a

/-- Modelled from the spec: `graphmaker.handle_special_resources` (§4.3
SpecialResourceHandlers) — the fixed, ordered list of (prefix, handler)
bindings evaluated once per pipeline run, in declared order. -/
def handle_special_resources (t : TfData) : TfData :=
  applySpecialBindings (fun e acc => dispatchHandler e.2 acc) t

/-- First variant keyword matched (case-insensitively) inside the
attribute mapping, in the map's declared key order (§4.4). -/
def resolveVariant (attrs : Meta) (vars : List (String × String)) : Option String :=
  vars.findSome? (fun kv =>
    if attrs.any (fun a => strContainsCI a.2 kv.1) then some kv.2 else none)

/-- Modelled from the spec: `graphmaker.handle_variants` (§4.4
VariantResolver) — rewrites a node's rendered classification on the first
keyword match; identifiers and edges are never touched. -/
def handle_variants (t : TfData) : TfData :=
  { t with meta_data :=
      (t.meta_data.map (fun nm =>
        match AWS_NODE_VARIANTS.find? (fun v => strHasPrefix v.1 nm.1) with
        | some v =>
          match resolveVariant nm.2 v.2 with
          | some vt => (nm.1, nm.2 ++ [("variant_type", vt)])
          | none => nm
        | none => nm)) }

/-- The cardinality attribute of a node (count/for-each equivalent). -/
def getCount (meta : List (String × Meta)) (n : String) : Nat :=
  match meta.find? (fun kv => kv.1 = n) with
  | some kv =>
    match kv.2.find? (fun a => a.1 = "count") with
    | some a => (parseNat a.2).getD 1
    | none => 1
  | none => 1

/-- The indexed identifiers `n~1 .. n~cnt` of an expanded node (§4.5). -/
def expandNames (n : String) (cnt : Nat) : List String :=
  (List.range cnt).map (fun i => n ++ "~" ++ toString (i + 1))

/-- Modelled from the spec: expansion of one node with cardinality `cnt`
into indexed nodes, fanning every incoming and outgoing edge out to all
instances (§4.5).  A clash of a generated identifier with an existing one
is an invariant violation the engine must not silently corrupt the graph
with (§7); the model leaves the node unexpanded in that case. -/
def expandNode (n : String) (cnt : Nat) (g : Graphdict) : Graphdict :=
  let names := expandNames n cnt
  if 2 ≤ cnt ∧ (∀ m ∈ names, m ∉ gkeys g) then
    let g1 := names.foldl (fun acc m => ensureNode m acc) g
    let g2 := (allEdges g).foldl
      (fun acc e =>
        if e.2 = n then names.foldl (fun a m => addEdge e.1 m a) acc else acc) g1
    let g3 := names.foldl
      (fun acc m => (succsOf g n).foldl (fun a d => addEdge m d a) acc) g2
    removeNode n g3
  else g

/-- Modelled from the spec: `graphmaker.create_multiple_resources` (§4.5
MultiInstanceExpander) — every node declaring a cardinality above one is
replaced by indexed instances. -/
def create_multiple_resources (t : TfData) : TfData :=
  { t with graphdict :=
      ((gkeys t.graphdict).foldl
        (fun g n => expandNode n (getCount t.meta_data n) g) t.graphdict) }

/-- A directed edge with the direction-confirmed flag of §3. -/
structure DirEdge where
  origin : String
  dest : String
  confirmed : Bool
deriving DecidableEq, Repr

/-- Swap origin and destination. -/
def swapEdge (e : DirEdge) : DirEdge := { e with origin := e.dest, dest := e.origin }

/-- Rule class 1 (§4.6): reverse-list match on either endpoint swaps. -/
def applyReverseRule (e : DirEdge) : DirEdge :=
  if matchesAny AWS_REVERSE_ARROW_LIST e.origin || matchesAny AWS_REVERSE_ARROW_LIST e.dest
  then swapEdge e else e

/-- Rule class 2 (§4.6): a forced-destination node sitting at the origin
swaps. -/
def applyForcedDestRule (e : DirEdge) : DirEdge :=
  if matchesAny AWS_FORCED_DEST e.origin then swapEdge e else e

/-- Rule class 3 (§4.6): a forced-origin node sitting at the destination
swaps. -/
def applyForcedOriginRule (e : DirEdge) : DirEdge :=
  if matchesAny AWS_FORCED_ORIGIN e.dest then swapEdge e else e

/-- Modelled from the spec: the ArrowNormalizer decision for one edge
(§4.6) — the three rule classes in listed order, applied only when the
direction-confirmed flag is unset, which is then set. -/
def normalizeEdge (e : DirEdge) : DirEdge :=
  if e.confirmed then e
  else { applyForcedOriginRule (applyForcedDestRule (applyReverseRule e)) with
           confirmed := true }

/-- Empty every destination list, keeping the node set. -/
def clearDests (g : Graphdict) : Graphdict := g.map (fun kv => (kv.1, ([] : List String)))

/-- Modelled from the spec: `graphmaker.reverse_relations` (§4.6
ArrowNormalizer) — every edge is reinserted with its normalized
orientation. -/
def reverse_relations (t : TfData) : TfData :=
  { t with graphdict :=
      ((allEdges t.graphdict).foldl
        (fun g e =>
          let e2 := normalizeEdge ⟨e.1, e.2, false⟩
          addEdge e2.origin e2.dest g)
        (clearDests t.graphdict)) }

/-- Drop self-loop edges, which are removed unconditionally (§4.7). -/
def dropSelfLoops (g : Graphdict) : Graphdict :=
  g.map (fun kv => (kv.1, kv.2.filter (fun d => d ≠ kv.1)))

/-- The always-visible exception set: an edge one of whose endpoints has a
type in the always-draw-line list (§4.7). -/
def isExceptionEdge (o d : String) : Bool :=
  AWS_ALWAYS_DRAW_LINE.any (fun p => strHasPrefix p o || strHasPrefix p d)

/-- Bounded reachability: a depth-first search whose bound is the node
count (§4.7). -/
def reachB (g : Graphdict) : Nat → String → String → Bool
  | 0, _, _ => false
  | fuel + 1, src, dst =>
    (succsOf g src).any (fun d => d = dst || reachB g fuel d dst)

/-- One cycle-removal step: drop the edge when its destination already
reaches back to its origin, unless the edge is always-visible (§4.7). -/
def cycleStep (fuel : Nat) (g : Graphdict) (e : String × String) : Graphdict :=
  if reachB g fuel e.2 e.1 && !(isExceptionEdge e.1 e.2) then removeEdge e.1 e.2 g else g

/-- Modelled from the spec: `helpers.remove_recursive_links` (§4.7
CycleBreaker) — self-loops are dropped unconditionally, then every edge
whose destination has a path back to its origin is dropped unless
always-visible. -/
def remove_recursive_links (t : TfData) : TfData :=
  { t with graphdict :=
      (let g1 := dropSelfLoops t.graphdict
       (allEdges g1).foldl (cycleStep g1.length) g1) }

/-! ## The pipeline driver, embedded from `src/terravision.py` -/
/-- Function `_enrich_graph_data` of `terravision.py`: the fixed stage sequence,
each stage consuming the tfdata returned by the previous one. -/
def enrich_graph_data (tfdata0 : TfData) : TfData :=
  let tfdata1 := add_relations tfdata0
  let tfdata2 := consolidate_nodes tfdata1
  let tfdata3 := add_annotations tfdata2
  let tfdata4 := handle_special_resources tfdata3
  let tfdata5 := handle_variants tfdata4
  let tfdata6 := create_multiple_resources tfdata5
  let tfdata7 := reverse_relations tfdata6
  let tfdata8 := remove_recursive_links tfdata7
  tfdata8

/-- The tail of `compile_tfdata`: enrichment followed by the final
deterministic sort of the graph dictionary (lines 141-142). -/
def compile_finish (t : TfData) : TfData :=
  let t2 := enrich_graph_data t
  { t2 with graphdict := sort_graphdict t2.graphdict }

/-- A pre-generated JSON source file: either a full tfdata file (its
top-level object contains the key `all_resource`) or a plain graph
dictionary document. -/
inductive JsonSource where
  | withAllResource (d : TfData)
  | plainGraph (g : Graphdict)
deriving DecidableEq, Repr

/-- Function `_load_json_source` of `terravision.py`: a tfdata file rebinds the
working graph dictionary to a copy of the stored original graph dictionary
and reports it as unprocessed; a plain graph document is returned as the
graph dictionary and reported as already processed. -/
def load_json_source : JsonSource → TfData × Bool
  | .withAllResource d => ({ d with graphdict := d.original_graphdict }, false)
  | .plainGraph g =>
    ({ graphdict := g, original_graphdict := [], meta_data := [] }, true)

/-- A compile source: a `.json` file or a terraform source tree (the plan
extractor's output, which is external collaborator data, §6). -/
inductive CompileSource where
  | json (j : JsonSource)
  | terraform (d : TfData)
deriving DecidableEq, Repr

/-- Function `compile_tfdata` of `terravision.py`: an already-processed JSON source
is returned without enrichment; everything else runs the enrichment
pipeline and the final sort. -/
def compile_tfdata : CompileSource → TfData
  | .json j =>
    let loaded := load_json_source j
    if loaded.2 then loaded.1 else compile_finish loaded.1
  | .terraform d => compile_finish d

/-- The environment the `draw` command runs in: the preflight findings and
the outcome of the narrative-generation (LLM) call; `llmResult = none`
embeds a failed refinement call (exception). -/
structure Env where
  depsOk : Bool
  terraformVersionOk : Bool
  ollamaReachable : Bool
  llmResult : Option Graphdict
deriving DecidableEq, Repr

/-- Function `preflight_check` of `terravision.py`: dependency check, terraform
version check, then the Ollama server check; any failure exits the
program. -/
def preflight_check (env : Env) : Bool :=
  env.depsOk && env.terraformVersionOk && env.ollamaReachable

/-- Function `_refine_with_llm` of `terravision.py`: the LLM's refined JSON replaces
the graph dictionary; a failed call is an uncaught exception. -/
def refine_with_llm (env : Env) (t : TfData) : Option TfData :=
  match env.llmResult with
  | some refined => some { t with graphdict := refined }
  | none => none

/-- The `draw` command of `terravision.py`: preflight (exiting on an
unreachable Ollama server), compilation, LLM refinement, rendering of the
resulting graph dictionary.  The returned value is the graph dictionary
handed to the renderer; `none` means the program exited or aborted with no
diagram produced. -/
def draw (env : Env) (src : CompileSource) : Option Graphdict :=
  if preflight_check env then
    match refine_with_llm env (compile_tfdata src) with
    | some t => some t.graphdict
    | none => none
  else none

/-- JSON serialization with `sort_keys=True` as used by the `graphdata`
command: keys are emitted in sorted order, destination lists as stored. -/
def jsonSerialize (g : Graphdict) : Graphdict :=
  g.insertionSort keyLe

/-! ## Cycle removal: the §4.7 guarantees -/
/-- Pointwise adjacency inclusion (only edges are removed). -/
def SubG (g' g : Graphdict) : Prop := ∀ n d, d ∈ succsOf g' n → d ∈ succsOf g n

/-! ## Rule-table matching: longest prefix wins, ties by declaration order
(§3 invariant 4) -/
/-- One step of the rule-selection scan: a matching entry replaces the
current best only when its prefix is strictly longer. -/
def ruleStep {β : Type} (id0 : String) (best : Option (String × β))
    (entry : String × β) : Option (String × β) :=
  if strHasPrefix entry.1 id0 then
    match best with
    | none => some entry
    | some b => if b.1.length < entry.1.length then some entry else some b
  else best

/-- Modelled from the spec: RuleTable lookup per §3 invariant 4 — among the
entries whose prefix matches the identifier, the longest matching prefix
wins and ties are resolved by declaration order. -/
def bestRule {β : Type} (table : List (String × β)) (id0 : String) :
    Option (String × β) :=
  table.foldl (ruleStep id0) none

/-- The scan invariant: the current best matches, no scanned entry matches
with a longer prefix, and every scanned entry declared before the best that
matches has a strictly shorter prefix. -/
def RuleInv {β : Type} (id0 : String) (seen : List (String × β)) :
    Option (String × β) → Prop
  | none => ∀ x ∈ seen, strHasPrefix x.1 id0 = false
  | some b =>
    (∃ pre post, seen = pre ++ b :: post
        ∧ (∀ x ∈ pre, strHasPrefix x.1 id0 = true → x.1.length < b.1.length))
      ∧ strHasPrefix b.1 id0 = true
      ∧ (∀ x ∈ seen, strHasPrefix x.1 id0 = true → x.1.length ≤ b.1.length)

/-! ## The §4.8 node enumeration (draw-order buckets) -/
/-- A node matches a draw-order bucket when some prefix in the bucket's
classification list matches it; the empty string matches everything. -/
def matchesBucket (ps : List String) (n : String) : Bool :=
  ps.any (fun p => p = "" || strHasPrefix p n)

/-- Modelled from the spec: the §4.8 precedence bucket of a node — the
first list of `AWS_DRAW_ORDER` whose classification matches, decided by the
RuleTable classification lists and not by edge topology. -/
def bucketIdx (n : String) : Nat :=
  AWS_DRAW_ORDER.findIdx (fun ps => matchesBucket ps n)

/-- Modelled from the spec: the §4.8 TopologicalSorter node enumeration —
nodes grouped by precedence bucket in the fixed `AWS_DRAW_ORDER` order,
each bucket ordered by identifier. -/
def draw_order_nodes (ns : List String) : List String :=
  (List.range AWS_DRAW_ORDER.length).flatMap
    (fun i => (ns.filter (fun n => bucketIdx n = i)).insertionSort strLe)

/-! ## Concrete inputs used by witnesses and counterexamples -/
/-- A one-node graph used to exercise the `draw` command. -/
def exGraphC1 : Graphdict := [("aws_vpc.main", [])]

/-- A terraform compile source for the `draw` command example. -/
def exSourceC1 : CompileSource :=
  CompileSource.terraform
    { graphdict := exGraphC1, original_graphdict := exGraphC1, meta_data := [] }

/-- Environment: everything healthy except the Ollama server. -/
def envOllamaDown : Env :=
  { depsOk := true, terraformVersionOk := true, ollamaReachable := false,
    llmResult := some [("llm.refined", [])] }

/-- Environment: all preflight checks pass and the LLM returns a refined
dictionary different from the engine's graph. -/
def envOllamaUp : Env :=
  { depsOk := true, terraformVersionOk := true, ollamaReachable := true,
    llmResult := some [("llm.refined", [])] }

/-- Environment: preflight passes but the LLM call fails (raises). -/
def envLlmFail : Env :=
  { depsOk := true, terraformVersionOk := true, ollamaReachable := true,
    llmResult := none }

/-- Raw input for the invariants witness: a duplicate destination, a
dangling destination, a two-node reference cycle between consolidated
route53 resources, and a self-loop on a node with cardinality two. -/
def tC3 : TfData :=
  { graphdict :=
      [("aws_route53_zone.z", ["aws_route53_record.r", "aws_missing.x", "aws_route53_record.r"]),
       ("aws_route53_record.r", ["aws_route53_zone.z"]),
       ("aws_instance.web", ["aws_instance.web", "aws_route53_zone.z"])],
    original_graphdict := [],
    meta_data := [("aws_instance.web", [("count", "2")])] }

/-- Raw input for the cycle-removal witness: a two-node cycle between
non-exception resource types plus a self-loop. -/
def tC4 : TfData :=
  { graphdict :=
      [("aws_s3_bucket.a", ["aws_sqs_queue.b"]),
       ("aws_sqs_queue.b", ["aws_s3_bucket.a", "aws_sqs_queue.b"])],
    original_graphdict := [],
    meta_data := [] }

/-! ## Theorems -/

/-! ### Invariant preservation for the primitives -/
theorem WF_ensureNode (n : String) (g : Graphdict) (h : WF g) : WF (ensureNode n g) := by
  obtain ⟨h1, h2, h3⟩ := h
  unfold ensureNode
  split
  · exact ⟨h1, h2, h3⟩
  · next hn =>
    refine ⟨?_, ?_, ?_⟩
    · have hk : gkeys (g ++ [(n, [])]) = gkeys g ++ [n] := by simp [gkeys]
      unfold NodupKeys
      rw [hk, List.nodup_append]
      exact ⟨h1, List.nodup_singleton _, by simpa using hn⟩
    · intro kv hkv
      rcases List.mem_append.mp hkv with hkv | hkv
      · exact h2 kv hkv
      · simp at hkv; subst hkv; simp
    · intro kv hkv d hd
      rcases List.mem_append.mp hkv with hkv | hkv
      · have := h3 kv hkv d hd
        simp [gkeys] at this ⊢
        exact Or.inl this
      · simp at hkv; subst hkv; simp at hd

theorem WF_addEdge (o d : String) (g : Graphdict) (h : WF g) : WF (addEdge o d g) := by
  obtain ⟨h1, h2, h3⟩ := h
  unfold addEdge
  split
  · next hod =>
    refine ⟨?_, ?_, ?_⟩
    · unfold NodupKeys gkeys at h1 ⊢
      have : (g.map (fun kv => if kv.1 = o ∧ d ∉ kv.2 then (kv.1, kv.2 ++ [d]) else kv)).map Prod.fst = g.map Prod.fst := by
        rw [List.map_map]
        apply List.map_congr_left
        intro kv _
        by_cases hc : kv.1 = o ∧ d ∉ kv.2 <;> simp [hc]
      rw [this]; exact h1
    · intro kv hkv
      rcases List.mem_map.mp hkv with ⟨kv0, hkv0, heq⟩
      by_cases hc : kv0.1 = o ∧ d ∉ kv0.2
      · simp [hc] at heq
        subst heq
        rw [List.nodup_append]
        exact ⟨h2 kv0 hkv0, List.nodup_singleton _, by simpa using hc.2⟩
      · simp [hc] at heq; subst heq; exact h2 kv0 hkv0
    · intro kv hkv x hx
      have hkeys : gkeys (g.map (fun kv => if kv.1 = o ∧ d ∉ kv.2 then (kv.1, kv.2 ++ [d]) else kv)) = gkeys g := by
        unfold gkeys
        rw [List.map_map]
        apply List.map_congr_left
        intro kv _
        by_cases hc : kv.1 = o ∧ d ∉ kv.2 <;> simp [hc]
      rw [hkeys]
      rcases List.mem_map.mp hkv with ⟨kv0, hkv0, heq⟩
      by_cases hc : kv0.1 = o ∧ d ∉ kv0.2
      · simp [hc] at heq
        subst heq
        simp at hx
        rcases hx with hx | hx
        · exact h3 kv0 hkv0 x hx
        · subst hx; exact hod.2
      · simp [hc] at heq; subst heq; exact h3 kv0 hkv0 x hx
  · exact ⟨h1, h2, h3⟩

theorem WF_shrinkMap (f : String × List String → List String)
    (hsub : ∀ kv : String × List String, (f kv).Sublist kv.2)
    (g : Graphdict) (h : WF g) : WF (g.map (fun kv => (kv.1, f kv))) := by
  obtain ⟨h1, h2, h3⟩ := h
  have hkeys : gkeys (g.map (fun kv => (kv.1, f kv))) = gkeys g := by
    unfold gkeys; rw [List.map_map]; rfl
  refine ⟨?_, ?_, ?_⟩
  · unfold NodupKeys; rw [hkeys]; exact h1
  · intro kv hkv
    rcases List.mem_map.mp hkv with ⟨kv0, hkv0, heq⟩
    subst heq
    exact (hsub kv0).nodup (h2 kv0 hkv0)
  · intro kv hkv x hx
    rw [hkeys]
    rcases List.mem_map.mp hkv with ⟨kv0, hkv0, heq⟩
    subst heq
    exact h3 kv0 hkv0 x ((hsub kv0).mem hx)

theorem WF_removeEdge (o d : String) (g : Graphdict) (h : WF g) : WF (removeEdge o d g) := by
  unfold removeEdge
  have : (fun kv : String × List String => if kv.1 = o then (kv.1, kv.2.filter (fun x => x ≠ d)) else kv)
       = (fun kv : String × List String => (kv.1, if kv.1 = o then kv.2.filter (fun x => x ≠ d) else kv.2)) := by
    funext kv; by_cases hc : kv.1 = o <;> simp [hc]
  rw [this]
  apply WF_shrinkMap
  · intro kv
    by_cases hc : kv.1 = o <;> simp [hc, List.filter_sublist]
  · exact h

theorem WF_removeDestsMatching (n : String) (p : String → Bool) (g : Graphdict)
    (h : WF g) : WF (removeDestsMatching n p g) := by
  unfold removeDestsMatching
  have : (fun kv : String × List String => if kv.1 = n then (kv.1, kv.2.filter (fun d => !(p d))) else kv)
       = (fun kv : String × List String => (kv.1, if kv.1 = n then kv.2.filter (fun d => !(p d)) else kv.2)) := by
    funext kv; by_cases hc : kv.1 = n <;> simp [hc]
  rw [this]
  apply WF_shrinkMap
  · intro kv
    by_cases hc : kv.1 = n <;> simp [hc, List.filter_sublist]
  · exact h

theorem gkeys_sanitize (g : Graphdict) : gkeys (sanitize g) = gkeys g := by
  unfold sanitize gkeys
  rw [List.map_map]
  rfl

theorem WF_sanitize (g : Graphdict) (h1 : NodupKeys g) : WF (sanitize g) := by
  refine ⟨?_, ?_, ?_⟩
  · unfold NodupKeys
    rw [gkeys_sanitize]
    exact h1
  · intro kv hkv
    rcases List.mem_map.mp hkv with ⟨kv0, _, heq⟩
    subst heq
    exact List.nodup_dedup _
  · intro kv hkv d hd
    rw [gkeys_sanitize]
    rcases List.mem_map.mp hkv with ⟨kv0, _, heq⟩
    subst heq
    simp only [List.mem_dedup, List.mem_filter, decide_eq_true_eq] at hd
    exact hd.2

theorem mem_gkeys_mergeDupAux (fuel : Nat) (g : Graphdict) (hle : g.length ≤ fuel)
    (x : String) : x ∈ gkeys (mergeDupAux fuel g) ↔ x ∈ gkeys g := by
  induction fuel generalizing g with
  | zero =>
    have hnil : g = [] := List.length_eq_zero.mp (Nat.le_zero.mp hle)
    subst hnil
    simp [mergeDupAux]
  | succ fuel ih =>
    cases g with
    | nil => simp [mergeDupAux]
    | cons kv rest =>
      have hr : rest.length ≤ fuel := Nat.succ_le_succ_iff.mp (by simpa using hle)
      have hle2 : (rest.filter (fun kv2 => kv2.1 ≠ kv.1)).length ≤ fuel :=
        le_trans (List.length_filter_le _ rest) hr
      show x ∈ gkeys ((kv.1, _) :: mergeDupAux fuel (rest.filter (fun kv2 => kv2.1 ≠ kv.1)))
        ↔ x ∈ gkeys (kv :: rest)
      simp only [gkeys, List.map_cons, List.mem_cons]
      rw [show (List.map Prod.fst (mergeDupAux fuel (rest.filter (fun kv2 => kv2.1 ≠ kv.1)))) = gkeys (mergeDupAux fuel (rest.filter (fun kv2 => kv2.1 ≠ kv.1))) from rfl]
      rw [ih _ hle2]
      constructor
      · rintro (h | h)
        · exact Or.inl h
        · rcases List.mem_map.mp h with ⟨kv2, hkv2, heq⟩
          exact Or.inr (List.mem_map.mpr ⟨kv2, (List.mem_filter.mp hkv2).1, heq⟩)
      · rintro (h | h)
        · exact Or.inl h
        · rcases List.mem_map.mp h with ⟨kv2, hkv2, heq⟩
          by_cases hx : kv2.1 = kv.1
          · exact Or.inl (heq ▸ hx)
          · exact Or.inr (List.mem_map.mpr
              ⟨kv2, List.mem_filter.mpr ⟨hkv2, by simpa using hx⟩, heq⟩)

theorem mem_gkeys_mergeDupKeys (g : Graphdict) (x : String) :
    x ∈ gkeys (mergeDupKeys g) ↔ x ∈ gkeys g :=
  mem_gkeys_mergeDupAux g.length g (le_refl _) x

theorem nodupKeys_mergeDupAux (fuel : Nat) (g : Graphdict) (hle : g.length ≤ fuel) :
    NodupKeys (mergeDupAux fuel g) := by
  induction fuel generalizing g with
  | zero =>
    have hnil : g = [] := List.length_eq_zero.mp (Nat.le_zero.mp hle)
    subst hnil
    simp [mergeDupAux, NodupKeys, gkeys]
  | succ fuel ih =>
    cases g with
    | nil => simp [mergeDupAux, NodupKeys, gkeys]
    | cons kv rest =>
      have hr : rest.length ≤ fuel := Nat.succ_le_succ_iff.mp (by simpa using hle)
      have hle2 : (rest.filter (fun kv2 => kv2.1 ≠ kv.1)).length ≤ fuel :=
        le_trans (List.length_filter_le _ rest) hr
      show NodupKeys ((kv.1, _) :: mergeDupAux fuel (rest.filter (fun kv2 => kv2.1 ≠ kv.1)))
      unfold NodupKeys gkeys
      rw [List.map_cons, List.nodup_cons]
      refine ⟨?_, ih _ hle2⟩
      intro hmem
      have hm2 := (mem_gkeys_mergeDupAux fuel _ hle2 kv.1).mp hmem
      rcases List.mem_map.mp hm2 with ⟨kv2, hkv2, heq⟩
      have := (List.mem_filter.mp hkv2).2
      simp [heq] at this

theorem nodupKeys_mergeDupKeys (g : Graphdict) : NodupKeys (mergeDupKeys g) :=
  nodupKeys_mergeDupAux g.length g (le_refl _)

theorem nodupEdges_mergeDupAux (fuel : Nat) (g : Graphdict) (hle : g.length ≤ fuel) :
    NodupEdges (mergeDupAux fuel g) := by
  induction fuel generalizing g with
  | zero =>
    have hnil : g = [] := List.length_eq_zero.mp (Nat.le_zero.mp hle)
    subst hnil
    intro kv hkv
    simp [mergeDupAux] at hkv
  | succ fuel ih =>
    cases g with
    | nil => intro kv hkv; simp [mergeDupAux] at hkv
    | cons kv1 rest =>
      have hr : rest.length ≤ fuel := Nat.succ_le_succ_iff.mp (by simpa using hle)
      have hle2 : (rest.filter (fun kv2 => kv2.1 ≠ kv1.1)).length ≤ fuel :=
        le_trans (List.length_filter_le _ rest) hr
      intro kv hkv
      rw [show mergeDupAux (fuel + 1) (kv1 :: rest)
          = (kv1.1, (kv1.2 ++ (rest.filter (fun kv2 => kv2.1 = kv1.1)).flatMap Prod.snd).dedup)
            :: mergeDupAux fuel (rest.filter (fun kv2 => kv2.1 ≠ kv1.1)) from rfl] at hkv
      rcases List.mem_cons.mp hkv with h | h
      · subst h; exact List.nodup_dedup _
      · exact ih _ hle2 kv h

theorem nodupEdges_mergeDupKeys (g : Graphdict) : NodupEdges (mergeDupKeys g) :=
  nodupEdges_mergeDupAux g.length g (le_refl _)

theorem mem_dest_mergeDupAux (fuel : Nat) (g : Graphdict) (kv : String × List String)
    (hkv : kv ∈ mergeDupAux fuel g) (d : String) (hd : d ∈ kv.2) :
    ∃ kv0 ∈ g, d ∈ kv0.2 := by
  induction fuel generalizing g kv with
  | zero => exact ⟨kv, hkv, hd⟩
  | succ fuel ih =>
    cases g with
    | nil => simp [mergeDupAux] at hkv
    | cons kv1 rest =>
      rw [show mergeDupAux (fuel + 1) (kv1 :: rest)
          = (kv1.1, (kv1.2 ++ (rest.filter (fun kv2 => kv2.1 = kv1.1)).flatMap Prod.snd).dedup)
            :: mergeDupAux fuel (rest.filter (fun kv2 => kv2.1 ≠ kv1.1)) from rfl] at hkv
      rcases List.mem_cons.mp hkv with h | h
      · subst h
        simp only [List.mem_dedup, List.mem_append] at hd
        rcases hd with hd | hd
        · exact ⟨kv1, List.mem_cons_self _ _, hd⟩
        · rcases List.mem_flatMap.mp hd with ⟨kv2, hkv2, hdin⟩
          exact ⟨kv2, List.mem_cons_of_mem _ (List.mem_filter.mp hkv2).1, hdin⟩
      · rcases ih _ kv h hd with ⟨kv0, hkv0, hdin⟩
        exact ⟨kv0, List.mem_cons_of_mem _ (List.mem_filter.mp hkv0).1, hdin⟩

theorem noDangling_mergeDupKeys (g : Graphdict) (h : NoDangling g) :
    NoDangling (mergeDupKeys g) := by
  intro kv hkv d hd
  rcases mem_dest_mergeDupAux g.length g kv hkv d hd with ⟨kv0, hkv0, hdin⟩
  exact (mem_gkeys_mergeDupKeys g d).mpr (h kv0 hkv0 d hdin)

theorem noDangling_renameNodes (pfx tgt : String) (g : Graphdict)
    (h : NoDangling g) : NoDangling (renameNodes pfx tgt g) := by
  intro kv hkv d hd
  rcases List.mem_map.mp hkv with ⟨kv0, hkv0, heq⟩
  subst heq
  rcases List.mem_map.mp hd with ⟨d0, hd0, heq⟩
  subst heq
  have hmem := h kv0 hkv0 d0 hd0
  unfold gkeys at hmem
  show renameId pfx tgt d0 ∈ gkeys (renameNodes pfx tgt g)
  unfold gkeys renameNodes
  rw [List.map_map]
  rcases List.mem_map.mp hmem with ⟨kv1, hkv1, heq1⟩
  exact List.mem_map.mpr ⟨kv1, hkv1, by simp [Function.comp, heq1]⟩

theorem WF_consolidateRule (g : Graphdict) (rule : String × String) (h : WF g) :
    WF (consolidateRule g rule) :=
  ⟨nodupKeys_mergeDupKeys _, nodupEdges_mergeDupKeys _,
   noDangling_mergeDupKeys _ (noDangling_renameNodes _ _ _ h.2.2)⟩

/-- Invariant preservation lifts through left folds of preserving steps. -/
theorem WF_foldl {β : Type} (f : Graphdict → β → Graphdict) (l : List β)
    (hstep : ∀ g b, WF g → WF (f g b)) (g : Graphdict) (h : WF g) :
    WF (l.foldl f g) := by
  induction l generalizing g with
  | nil => exact h
  | cons b rest ih => exact ih (f g b) (hstep g b h)

theorem WF_sort_graphdict (g : Graphdict) (h : WF g) : WF (sort_graphdict g) := by
  obtain ⟨h1, h2, h3⟩ := h
  unfold sort_graphdict
  set g1 := g.map (fun kv => (kv.1, kv.2.insertionSort strLe)) with hg1
  have hperm : List.Perm (g1.insertionSort keyLe) g1 :=
    List.perm_insertionSort keyLe g1
  have hkeys1 : gkeys g1 = gkeys g := by
    unfold gkeys
    rw [hg1, List.map_map]
    rfl
  have hWF1 : WF g1 := by
    refine ⟨?_, ?_, ?_⟩
    · unfold NodupKeys; rw [hkeys1]; exact h1
    · intro kv hkv
      rcases List.mem_map.mp hkv with ⟨kv0, hkv0, heq⟩
      subst heq
      exact (List.perm_insertionSort _ kv0.2).nodup_iff.mpr (h2 kv0 hkv0)
    · intro kv hkv d hd
      rw [hkeys1]
      rcases List.mem_map.mp hkv with ⟨kv0, hkv0, heq⟩
      subst heq
      exact h3 kv0 hkv0 d ((List.perm_insertionSort _ kv0.2).mem_iff.mp hd)
  have hkeysPerm : List.Perm (gkeys (g1.insertionSort keyLe)) (gkeys g1) :=
    hperm.map Prod.fst
  refine ⟨?_, ?_, ?_⟩
  · exact hkeysPerm.nodup_iff.mpr hWF1.1
  · intro kv hkv
    exact hWF1.2.1 kv (hperm.mem_iff.mp hkv)
  · intro kv hkv d hd
    exact hkeysPerm.mem_iff.mpr (hWF1.2.2 kv (hperm.mem_iff.mp hkv) d hd)

/-! ## Invariant preservation through every stage (§3: the invariants hold
at the boundary of every stage) -/
theorem WF_addImpliedForAttr (n : String) (a : String × String) (g : Graphdict)
    (h : WF g) : WF (addImpliedForAttr n a g) := by
  unfold addImpliedForAttr
  cases AWS_IMPLIED_CONNECTIONS.find? (fun ic => ic.1 = a.1) with
  | none => exact h
  | some ic => exact WF_foldl _ _ (fun g2 m h2 => WF_addEdge n m g2 h2) g h

theorem WF_add_relations (t : TfData) (h : NodupKeys t.graphdict) :
    WF (add_relations t).graphdict := by
  unfold add_relations
  exact WF_foldl _ _
    (fun g nm hg => WF_foldl _ _ (fun g2 a h2 => WF_addImpliedForAttr nm.1 a g2 h2) g hg)
    (sanitize t.graphdict) (WF_sanitize t.graphdict h)

theorem graphdict_consolidate_nodes (t : TfData) :
    (consolidate_nodes t).graphdict
      = AWS_CONSOLIDATED_NODES.foldl consolidateRule t.graphdict := by
  unfold consolidate_nodes
  with_reducible rfl

theorem WF_consolidateFold (l : List (String × String)) (g : Graphdict)
    (h : WF g) : WF (l.foldl consolidateRule g) :=
  WF_foldl consolidateRule l (fun g2 r hg => WF_consolidateRule g2 r hg) g h

theorem WF_consolidate_nodes (t : TfData) (h : WF t.graphdict) :
    WF (consolidate_nodes t).graphdict := by
  rw [graphdict_consolidate_nodes]
  exact WF_consolidateFold AWS_CONSOLIDATED_NODES t.graphdict h

theorem WF_linkEdge (arrow n target : String) (g : Graphdict) (h : WF g) :
    WF (linkEdge arrow n target g) := by
  unfold linkEdge
  split
  · exact WF_addEdge _ _ _ h
  · exact WF_addEdge _ _ _ h

theorem WF_applyLinkTarget (arrow n target : String) (g : Graphdict) (h : WF g) :
    WF (applyLinkTarget arrow n target g) := by
  unfold applyLinkTarget
  split
  · exact WF_foldl _ _ (fun g2 m h2 => WF_linkEdge arrow n m g2 h2) g h
  · exact WF_linkEdge arrow n target _ (WF_ensureNode target g h)

theorem WF_applyAnnotationRule (g : Graphdict) (rule : String × AnnotationRule)
    (h : WF g) : WF (applyAnnotationRule g rule) := by
  unfold applyAnnotationRule
  apply WF_foldl _ _ _ g h
  intro g2 n h2
  apply WF_foldl _ _ _ _ (WF_foldl _ _ (fun g4 L h4 => WF_applyLinkTarget rule.2.arrow n L g4 h4) g2 h2)
  intro g4 p h4
  exact WF_removeDestsMatching n _ g4 h4

theorem graphdict_add_annotations (t : TfData) :
    (add_annotations t).graphdict
      = AWS_AUTO_ANNOTATIONS.foldl applyAnnotationRule t.graphdict := by
  unfold add_annotations
  with_reducible rfl

theorem WF_annotationFold (l : List (String × AnnotationRule)) (g : Graphdict)
    (h : WF g) : WF (l.foldl applyAnnotationRule g) :=
  WF_foldl applyAnnotationRule l (fun g2 r hg => WF_applyAnnotationRule g2 r hg) g h

theorem WF_add_annotations (t : TfData) (h : WF t.graphdict) :
    WF (add_annotations t).graphdict := by
  rw [graphdict_add_annotations]
  exact WF_annotationFold AWS_AUTO_ANNOTATIONS t.graphdict h

theorem WF_aws_handle_subnet_azs (t : TfData) (h : WF t.graphdict) :
    WF (aws_handle_subnet_azs t).graphdict := by
  unfold aws_handle_subnet_azs
  exact WF_foldl _ _
    (fun g n hg => WF_addEdge _ n _ (WF_ensureNode _ g hg)) t.graphdict h

theorem WF_aws_handle_sg (t : TfData) (h : WF t.graphdict) :
    WF (aws_handle_sg t).graphdict := by
  unfold aws_handle_sg
  exact WF_foldl _ _
    (fun g s hg => WF_foldl _ _ (fun g2 n h2 => WF_addEdge n s g2 h2) g hg)
    t.graphdict h

theorem WF_dispatchHandler (hname : String) (t : TfData) (h : WF t.graphdict) :
    WF (dispatchHandler hname t).graphdict := by
  unfold dispatchHandler
  split
  · exact WF_aws_handle_subnet_azs t h
  · split
    · exact WF_aws_handle_sg t h
    · exact h

theorem tfdata_handle_special_resources (t : TfData) :
    handle_special_resources t
      = AWS_SPECIAL_RESOURCES.foldl (fun acc e => dispatchHandler e.2 acc) t := by
  unfold handle_special_resources applySpecialBindings
  with_reducible rfl

theorem WF_handlerFold (l : List (String × String)) (t : TfData)
    (h : WF t.graphdict) :
    WF ((l.foldl (fun acc e => dispatchHandler e.2 acc) t)).graphdict := by
  induction l generalizing t with
  | nil => exact h
  | cons e rest ih =>
    rw [List.foldl_cons]
    exact ih (dispatchHandler e.2 t) (WF_dispatchHandler e.2 t h)

theorem WF_handle_special_resources (t : TfData) (h : WF t.graphdict) :
    WF (handle_special_resources t).graphdict := by
  rw [tfdata_handle_special_resources]
  exact WF_handlerFold AWS_SPECIAL_RESOURCES t h

theorem graphdict_handle_variants (t : TfData) :
    (handle_variants t).graphdict = t.graphdict := rfl

theorem WF_handle_variants (t : TfData) (h : WF t.graphdict) :
    WF (handle_variants t).graphdict := by
  rw [graphdict_handle_variants]; exact h

theorem WF_removeNode (n : String) (g : Graphdict) (h : WF g) : WF (removeNode n g) := by
  obtain ⟨h1, h2, h3⟩ := h
  unfold removeNode
  have hkeys : gkeys ((g.filter (fun kv => kv.1 ≠ n)).map
      (fun kv => (kv.1, kv.2.filter (fun d => d ≠ n)))) = gkeys (g.filter (fun kv => kv.1 ≠ n)) := by
    unfold gkeys; rw [List.map_map]; rfl
  refine ⟨?_, ?_, ?_⟩
  · unfold NodupKeys
    rw [hkeys]
    exact ((List.filter_sublist g).map Prod.fst).nodup h1
  · intro kv hkv
    rcases List.mem_map.mp hkv with ⟨kv0, hkv0, heq⟩
    subst heq
    exact (List.filter_sublist kv0.2).nodup (h2 kv0 (List.mem_of_mem_filter hkv0))
  · intro kv hkv d hd
    rw [hkeys]
    rcases List.mem_map.mp hkv with ⟨kv0, hkv0, heq⟩
    subst heq
    simp only [List.mem_filter, decide_eq_true_eq] at hd
    obtain ⟨hd0, hdn⟩ := hd
    have hdk := h3 kv0 (List.mem_of_mem_filter hkv0) d hd0
    rcases List.mem_map.mp hdk with ⟨kv1, hkv1, heq1⟩
    refine List.mem_map.mpr ⟨kv1, List.mem_filter.mpr ⟨hkv1, ?_⟩, heq1⟩
    simpa [heq1] using hdn

theorem WF_expandNode (n : String) (cnt : Nat) (g : Graphdict) (h : WF g) :
    WF (expandNode n cnt g) := by
  simp only [expandNode]
  split
  · apply WF_removeNode
    apply WF_foldl _ _ (fun acc m hacc =>
      WF_foldl _ _ (fun a d ha => WF_addEdge m d a ha) acc hacc)
    apply WF_foldl _ _ (fun acc e hacc => ?_) _
      (WF_foldl _ _ (fun acc m hacc => WF_ensureNode m acc hacc) g h)
    split
    · exact WF_foldl _ _ (fun a m ha => WF_addEdge e.1 m a ha) acc hacc
    · exact hacc
  · exact h

theorem WF_create_multiple_resources (t : TfData) (h : WF t.graphdict) :
    WF (create_multiple_resources t).graphdict := by
  unfold create_multiple_resources
  exact WF_foldl _ _
    (fun g n hg => WF_expandNode n (getCount t.meta_data n) g hg) t.graphdict h

theorem WF_clearDests (g : Graphdict) (h : NodupKeys g) : WF (clearDests g) := by
  refine ⟨?_, ?_, ?_⟩
  · unfold NodupKeys clearDests gkeys
    unfold NodupKeys gkeys at h
    rw [List.map_map]
    exact h
  · intro kv hkv
    rcases List.mem_map.mp hkv with ⟨kv0, _, heq⟩
    subst heq
    simp
  · intro kv hkv d hd
    rcases List.mem_map.mp hkv with ⟨kv0, _, heq⟩
    subst heq
    simp at hd

theorem WF_reverse_relations (t : TfData) (h : WF t.graphdict) :
    WF (reverse_relations t).graphdict := by
  unfold reverse_relations
  exact WF_foldl _ _
    (fun g e hg => WF_addEdge _ _ g hg) (clearDests t.graphdict)
    (WF_clearDests t.graphdict h.1)

theorem WF_dropSelfLoops (g : Graphdict) (h : WF g) : WF (dropSelfLoops g) := by
  unfold dropSelfLoops
  exact WF_shrinkMap _ (fun kv => List.filter_sublist kv.2) g h

theorem WF_cycleStep (fuel : Nat) (g : Graphdict) (e : String × String)
    (h : WF g) : WF (cycleStep fuel g e) := by
  unfold cycleStep
  split
  · exact WF_removeEdge e.1 e.2 g h
  · exact h

theorem WF_remove_recursive_links (t : TfData) (h : WF t.graphdict) :
    WF (remove_recursive_links t).graphdict := by
  unfold remove_recursive_links
  exact WF_foldl _ _
    (fun g e hg => WF_cycleStep _ g e hg) (dropSelfLoops t.graphdict)
    (WF_dropSelfLoops t.graphdict h)

theorem enrich_graph_data_eq (t : TfData) :
    enrich_graph_data t
      = remove_recursive_links (reverse_relations (create_multiple_resources
          (handle_variants (handle_special_resources (add_annotations
            (consolidate_nodes (add_relations t))))))) := by
  unfold enrich_graph_data
  with_reducible rfl

theorem WF_enrich_graph_data (t : TfData) (h : NodupKeys t.graphdict) :
    WF (enrich_graph_data t).graphdict := by
  rw [enrich_graph_data_eq]
  exact WF_remove_recursive_links _ (WF_reverse_relations _
    (WF_create_multiple_resources _ (WF_handle_variants _
      (WF_handle_special_resources _ (WF_add_annotations _
        (WF_consolidate_nodes _ (WF_add_relations t h)))))))

theorem graphdict_compile_finish (t : TfData) :
    (compile_finish t).graphdict = sort_graphdict (enrich_graph_data t).graphdict := by
  unfold compile_finish
  with_reducible rfl

theorem WF_compile_finish (t : TfData) (h : NodupKeys t.graphdict) :
    WF (compile_finish t).graphdict := by
  rw [graphdict_compile_finish]
  exact WF_sort_graphdict _ (WF_enrich_graph_data t h)

theorem SubG_refl (g : Graphdict) : SubG g g := fun _ _ h => h

theorem SubG_trans {a b c : Graphdict} (h1 : SubG a b) (h2 : SubG b c) : SubG a c :=
  fun n d h => h2 n d (h1 n d h)

theorem succsOf_map_entry (f : String × List String → List String) (g : Graphdict)
    (n : String) :
    succsOf (g.map (fun kv => (kv.1, f kv))) n
      = match g.find? (fun kv => kv.1 = n) with
        | some kv => f kv
        | none => [] := by
  induction g with
  | nil => rfl
  | cons kv rest ih =>
    by_cases h : kv.1 = n
    · simp [succsOf, List.find?, h]
    · simp only [List.map_cons, succsOf, List.find?] at ih ⊢
      simp only [h, decide_eq_false, Bool.false_eq_true, if_false] at ih ⊢
      exact ih

theorem removeEdge_eq (o d : String) (g : Graphdict) :
    removeEdge o d g
      = g.map (fun kv => (kv.1, if kv.1 = o then kv.2.filter (fun x => x ≠ d) else kv.2)) := by
  unfold removeEdge
  apply List.map_congr_left
  intro kv _
  by_cases h : kv.1 = o <;> simp [h]

theorem succsOf_removeEdge (o d n : String) (g : Graphdict) :
    succsOf (removeEdge o d g) n
      = if n = o then (succsOf g n).filter (fun x => x ≠ d) else succsOf g n := by
  rw [removeEdge_eq, succsOf_map_entry]
  unfold succsOf
  cases hf : g.find? (fun kv => kv.1 = n) with
  | none => by_cases h : n = o <;> simp [h]
  | some kv =>
    have hkn : kv.1 = n := by simpa using List.find?_some hf
    by_cases h : n = o
    · subst h; simp [hkn]
    · simp [hkn, h]

theorem SubG_removeEdge (o d : String) (g : Graphdict) : SubG (removeEdge o d g) g := by
  intro n x hx
  rw [succsOf_removeEdge] at hx
  by_cases h : n = o
  · rw [if_pos h] at hx
    exact List.mem_of_mem_filter hx
  · rwa [if_neg h] at hx

theorem not_mem_succs_removeEdge (o d : String) (g : Graphdict) :
    d ∉ succsOf (removeEdge o d g) o := by
  rw [succsOf_removeEdge, if_pos rfl]
  intro hmem
  have := (List.mem_filter.mp hmem).2
  simp at this

theorem succsOf_dropSelfLoops (g : Graphdict) (n : String) :
    succsOf (dropSelfLoops g) n = (succsOf g n).filter (fun x => x ≠ n) := by
  unfold dropSelfLoops
  rw [succsOf_map_entry]
  unfold succsOf
  cases hf : g.find? (fun kv => kv.1 = n) with
  | none => simp
  | some kv =>
    have hkn : kv.1 = n := by simpa using List.find?_some hf
    simp [hkn]

theorem SubG_dropSelfLoops (g : Graphdict) : SubG (dropSelfLoops g) g := by
  intro n x hx
  rw [succsOf_dropSelfLoops] at hx
  exact List.mem_of_mem_filter hx

theorem succs_dropSelfLoops_ne (g : Graphdict) (n d : String)
    (h : d ∈ succsOf (dropSelfLoops g) n) : d ≠ n := by
  rw [succsOf_dropSelfLoops] at h
  have := (List.mem_filter.mp h).2
  simpa using this

theorem reachB_mono (g' g : Graphdict) (hs : SubG g' g) (fuel : Nat) (s t : String)
    (h : reachB g' fuel s t = true) : reachB g fuel s t = true := by
  induction fuel generalizing s with
  | zero => simp [reachB] at h
  | succ fuel ih =>
    rw [reachB] at h ⊢
    rcases List.any_eq_true.mp h with ⟨d, hd, hor⟩
    refine List.any_eq_true.mpr ⟨d, hs s d hd, ?_⟩
    rcases Bool.or_eq_true_iff.mp hor with hc | hc
    · exact Bool.or_eq_true_iff.mpr (Or.inl hc)
    · exact Bool.or_eq_true_iff.mpr (Or.inr (ih d hc))

theorem SubG_cycleStep (fuel : Nat) (g : Graphdict) (e : String × String) :
    SubG (cycleStep fuel g e) g := by
  unfold cycleStep
  split
  · exact SubG_removeEdge e.1 e.2 g
  · exact SubG_refl g

theorem SubG_cycleFold (fuel : Nat) (es : List (String × String)) (g : Graphdict) :
    SubG (es.foldl (cycleStep fuel) g) g := by
  induction es generalizing g with
  | nil => exact SubG_refl g
  | cons e rest ih =>
    rw [List.foldl_cons]
    exact SubG_trans (ih (cycleStep fuel g e)) (SubG_cycleStep fuel g e)

theorem cycleFold_kept (fuel : Nat) (es : List (String × String)) (g : Graphdict)
    (o d : String) (h : d ∈ succsOf (es.foldl (cycleStep fuel) g) o)
    (hmem : (o, d) ∈ es) :
    isExceptionEdge o d = true ∨ reachB (es.foldl (cycleStep fuel) g) fuel d o = false := by
  induction es generalizing g with
  | nil => simp at hmem
  | cons e rest ih =>
    rw [List.foldl_cons] at h ⊢
    rcases List.mem_cons.mp hmem with he | he
    · by_cases hc : (reachB g fuel d o && !(isExceptionEdge o d)) = true
      · exfalso
        have hstep : cycleStep fuel g e = removeEdge o d g := by
          unfold cycleStep
          rw [← he]
          simp only [← he] at hc ⊢
          rw [if_pos hc]
        rw [hstep] at h
        exact not_mem_succs_removeEdge o d g
          (SubG_cycleFold fuel rest (removeEdge o d g) o d h)
      · have hstep : cycleStep fuel g e = g := by
          unfold cycleStep
          rw [← he]
          simp only [← he] at hc ⊢
          rw [if_neg (by simpa using hc)]
        rw [hstep] at h ⊢
        by_cases hexc : isExceptionEdge o d = true
        · exact Or.inl hexc
        · right
          have hexcf : isExceptionEdge o d = false := by
            cases hx : isExceptionEdge o d
            · rfl
            · exact absurd hx hexc
          have hrg : reachB g fuel d o = false := by
            cases hr : reachB g fuel d o
            · rfl
            · exact absurd (by simp [hr, hexcf]) hc
          cases hreach : reachB (rest.foldl (cycleStep fuel) g) fuel d o
          · rfl
          · exact absurd (reachB_mono _ _ (SubG_cycleFold fuel rest g) fuel d o hreach)
              (by simp [hrg])
    · exact ih (cycleStep fuel g e) h he

theorem mem_allEdges_of_succs (g : Graphdict) (o d : String)
    (h : d ∈ succsOf g o) : (o, d) ∈ allEdges g := by
  unfold succsOf at h
  cases hf : g.find? (fun kv => kv.1 = o) with
  | none => rw [hf] at h; simp at h
  | some kv =>
    rw [hf] at h
    have hk : kv.1 = o := by simpa using List.find?_some hf
    have hm : kv ∈ g := List.mem_of_find?_eq_some hf
    unfold allEdges
    exact List.mem_flatMap.mpr ⟨kv, hm, List.mem_map.mpr ⟨d, h, by rw [hk]⟩⟩

theorem length_removeEdge (o d : String) (g : Graphdict) :
    (removeEdge o d g).length = g.length := by
  simp [removeEdge]

theorem length_cycleStep (fuel : Nat) (g : Graphdict) (e : String × String) :
    (cycleStep fuel g e).length = g.length := by
  unfold cycleStep
  split
  · exact length_removeEdge e.1 e.2 g
  · rfl

theorem length_cycleFold (fuel : Nat) (es : List (String × String)) (g : Graphdict) :
    (es.foldl (cycleStep fuel) g).length = g.length := by
  induction es generalizing g with
  | nil => rfl
  | cons e rest ih =>
    rw [List.foldl_cons, ih, length_cycleStep]

theorem length_dropSelfLoops (g : Graphdict) : (dropSelfLoops g).length = g.length := by
  simp [dropSelfLoops]

theorem graphdict_remove_recursive_links (t : TfData) :
    (remove_recursive_links t).graphdict
      = (allEdges (dropSelfLoops t.graphdict)).foldl
          (cycleStep (dropSelfLoops t.graphdict).length) (dropSelfLoops t.graphdict) := by
  unfold remove_recursive_links
  with_reducible rfl

theorem rrl_no_self_loops (t : TfData) (o d : String)
    (h : d ∈ succsOf (remove_recursive_links t).graphdict o) : d ≠ o := by
  rw [graphdict_remove_recursive_links] at h
  exact succs_dropSelfLoops_ne t.graphdict o d
    (SubG_cycleFold _ _ (dropSelfLoops t.graphdict) o d h)

theorem rrl_acyclic (t : TfData) (o d : String)
    (h : d ∈ succsOf (remove_recursive_links t).graphdict o)
    (hexc : isExceptionEdge o d = false) :
    reachB (remove_recursive_links t).graphdict
      ((remove_recursive_links t).graphdict).length d o = false := by
  rw [graphdict_remove_recursive_links] at h ⊢
  rw [length_cycleFold]
  have hmem : (o, d) ∈ allEdges (dropSelfLoops t.graphdict) :=
    mem_allEdges_of_succs _ o d
      (SubG_cycleFold _ _ (dropSelfLoops t.graphdict) o d h)
  rcases cycleFold_kept _ _ (dropSelfLoops t.graphdict) o d h hmem with hx | hx
  · rw [hexc] at hx; exact absurd hx (by simp)
  · exact hx

/-! ## Adjacency lookups through the final sort -/
theorem key_mem_of_succs (g : Graphdict) (n d : String) (h : d ∈ succsOf g n) :
    n ∈ gkeys g := by
  unfold succsOf at h
  cases hf : g.find? (fun kv => kv.1 = n) with
  | none => rw [hf] at h; simp at h
  | some kv =>
    have hk : kv.1 = n := by simpa using List.find?_some hf
    have hm : kv ∈ g := List.mem_of_find?_eq_some hf
    exact hk ▸ List.mem_map.mpr ⟨kv, hm, rfl⟩

theorem succsOf_key_mem (g : Graphdict) (n : String) (h : n ∈ gkeys g) :
    (n, succsOf g n) ∈ g := by
  induction g with
  | nil => simp [gkeys] at h
  | cons kv rest ih =>
    by_cases hk : kv.1 = n
    · have hs : succsOf (kv :: rest) n = kv.2 := by
        unfold succsOf
        simp [List.find?, hk]
      rw [hs]
      have : kv = (n, kv.2) := by rw [← hk]
      exact this ▸ List.mem_cons_self _ _
    · have hs : succsOf (kv :: rest) n = succsOf rest n := by
        unfold succsOf
        simp [List.find?, hk]
      rw [hs]
      have hn : n ∈ gkeys rest := by
        unfold gkeys at h
        rcases List.mem_cons.mp h with h | h
        · exact absurd h.symm hk
        · exact h
      exact List.mem_cons_of_mem _ (ih hn)

theorem succsOf_eq_of_mem (g : Graphdict) (hk : NodupKeys g) (n : String)
    (ds : List String) (h : (n, ds) ∈ g) : succsOf g n = ds := by
  induction g with
  | nil => simp at h
  | cons kv rest ih =>
    unfold NodupKeys gkeys at hk
    rw [List.map_cons, List.nodup_cons] at hk
    rcases List.mem_cons.mp h with h | h
    · have hk1 : kv.1 = n := by rw [← h]
      unfold succsOf
      simp [List.find?, hk1, ← h]
    · have hkn : kv.1 ≠ n := by
        intro he
        exact hk.1 (he ▸ List.mem_map.mpr ⟨(n, ds), h, rfl⟩)
      have hs : succsOf (kv :: rest) n = succsOf rest n := by
        unfold succsOf
        simp [List.find?, hkn]
      rw [hs]
      exact ih hk.2 h

theorem sort_graphdict_perm (g : Graphdict) :
    List.Perm (sort_graphdict g) (g.map (fun kv => (kv.1, kv.2.insertionSort strLe))) :=
  List.perm_insertionSort keyLe _

theorem gkeys_sort_perm (g : Graphdict) :
    List.Perm (gkeys (sort_graphdict g)) (gkeys g) := by
  have h := (sort_graphdict_perm g).map Prod.fst
  have h2 : (g.map (fun kv => (kv.1, kv.2.insertionSort strLe))).map Prod.fst = gkeys g := by
    unfold gkeys
    rw [List.map_map]
    rfl
  rw [h2] at h
  exact h

theorem nodupKeys_sort (g : Graphdict) (hk : NodupKeys g) :
    NodupKeys (sort_graphdict g) :=
  (gkeys_sort_perm g).nodup_iff.mpr hk

theorem succs_sort_iff (g : Graphdict) (hk : NodupKeys g) (n d : String) :
    d ∈ succsOf (sort_graphdict g) n ↔ d ∈ succsOf g n := by
  constructor
  · intro h
    have hn : n ∈ gkeys (sort_graphdict g) := key_mem_of_succs _ n d h
    have hmem : (n, succsOf (sort_graphdict g) n) ∈ sort_graphdict g :=
      succsOf_key_mem _ n hn
    have hmem2 := (sort_graphdict_perm g).mem_iff.mp hmem
    rcases List.mem_map.mp hmem2 with ⟨kv0, hkv0, heq⟩
    have hk1 : kv0.1 = n := congrArg Prod.fst heq
    have hk2 : kv0.2.insertionSort strLe = succsOf (sort_graphdict g) n :=
      congrArg Prod.snd heq
    have hd : d ∈ kv0.2 :=
      (List.perm_insertionSort strLe kv0.2).mem_iff.mp (hk2 ▸ h)
    have hmem3 : (n, kv0.2) ∈ g := by
      have : kv0 = (n, kv0.2) := by rw [← hk1]
      exact this ▸ hkv0
    rw [succsOf_eq_of_mem g hk n kv0.2 hmem3]
    exact hd
  · intro h
    have hn : n ∈ gkeys g := key_mem_of_succs _ n d h
    have hmem : (n, succsOf g n) ∈ g := succsOf_key_mem _ n hn
    have hmem2 : (n, (succsOf g n).insertionSort strLe) ∈ sort_graphdict g :=
      (sort_graphdict_perm g).mem_iff.mpr
        (List.mem_map.mpr ⟨(n, succsOf g n), hmem, rfl⟩)
    rw [succsOf_eq_of_mem _ (nodupKeys_sort g hk) n _ hmem2]
    exact (List.perm_insertionSort strLe _).mem_iff.mpr h

theorem SubG_sort (g : Graphdict) (hk : NodupKeys g) : SubG (sort_graphdict g) g :=
  fun n d h => (succs_sort_iff g hk n d).mp h

theorem SubG_sort_rev (g : Graphdict) (hk : NodupKeys g) : SubG g (sort_graphdict g) :=
  fun n d h => (succs_sort_iff g hk n d).mpr h

theorem length_sort_graphdict (g : Graphdict) :
    (sort_graphdict g).length = g.length := by
  have := (sort_graphdict_perm g).length_eq
  simpa using this

theorem ruleStep_inv {β : Type} (id0 : String) (seen : List (String × β))
    (acc : Option (String × β)) (e : String × β) (hinv : RuleInv id0 seen acc) :
    RuleInv id0 (seen ++ [e]) (ruleStep id0 acc e) := by
  unfold ruleStep
  by_cases hm : strHasPrefix e.1 id0 = true
  · rw [if_pos hm]
    cases acc with
    | none =>
      refine ⟨⟨seen, [], rfl, ?_⟩, hm, ?_⟩
      · intro x hx hmx
        exact absurd hmx (by simp [hinv x hx])
      · intro x hx hmx
        rcases List.mem_append.mp hx with hx | hx
        · exact absurd hmx (by simp [hinv x hx])
        · simp at hx
          subst hx
          exact le_refl _
    | some b =>
      obtain ⟨⟨pre, post, hseen, hpre⟩, hbm, hall⟩ := hinv
      show RuleInv id0 (seen ++ [e]) (if b.1.length < e.1.length then some e else some b)
      by_cases hlt : b.1.length < e.1.length
      · rw [if_pos hlt]
        refine ⟨⟨seen, [], rfl, ?_⟩, hm, ?_⟩
        · intro x hx hmx
          exact lt_of_le_of_lt (hall x hx hmx) hlt
        · intro x hx hmx
          rcases List.mem_append.mp hx with hx | hx
          · exact le_of_lt (lt_of_le_of_lt (hall x hx hmx) hlt)
          · simp at hx
            subst hx
            exact le_refl _
      · rw [if_neg hlt]
        refine ⟨⟨pre, post ++ [e], by rw [hseen, List.append_assoc, List.cons_append], hpre⟩,
          hbm, ?_⟩
        intro x hx hmx
        rcases List.mem_append.mp hx with hx | hx
        · exact hall x hx hmx
        · simp at hx
          subst hx
          exact Nat.le_of_not_lt hlt
  · rw [if_neg hm]
    cases acc with
    | none =>
      intro x hx
      rcases List.mem_append.mp hx with hx | hx
      · exact hinv x hx
      · simp at hx
        subst hx
        simpa using hm
    | some b =>
      obtain ⟨⟨pre, post, hseen, hpre⟩, hbm, hall⟩ := hinv
      refine ⟨⟨pre, post ++ [e], by rw [hseen, List.append_assoc, List.cons_append], hpre⟩,
        hbm, ?_⟩
      intro x hx hmx
      rcases List.mem_append.mp hx with hx | hx
      · exact hall x hx hmx
      · simp at hx
        subst hx
        exact absurd hmx (by simpa using hm)

theorem foldRule_inv {β : Type} (id0 : String) (rest : List (String × β)) :
    ∀ (seen : List (String × β)) (acc : Option (String × β)),
      RuleInv id0 seen acc →
      RuleInv id0 (seen ++ rest) (rest.foldl (ruleStep id0) acc) := by
  induction rest with
  | nil => intro seen acc h; simpa using h
  | cons e rest ih =>
    intro seen acc h
    rw [List.foldl_cons]
    have h2 := ih (seen ++ [e]) (ruleStep id0 acc e) (ruleStep_inv id0 seen acc e h)
    rwa [List.append_assoc, List.singleton_append] at h2

theorem bestRule_inv {β : Type} (table : List (String × β)) (id0 : String) :
    RuleInv id0 table (bestRule table id0) := by
  have h := foldRule_inv id0 table [] none (by intro x hx; simp at hx)
  simpa using h

theorem length_AWS_DRAW_ORDER : AWS_DRAW_ORDER.length = 5 := rfl

theorem bucketIdx_lt (n : String) : bucketIdx n < 5 := by
  have hex : ∃ ps ∈ AWS_DRAW_ORDER, matchesBucket ps n = true := by
    refine ⟨[""], by simp [AWS_DRAW_ORDER], ?_⟩
    simp [matchesBucket]
  have h := List.findIdx_lt_length_of_exists hex
  rwa [length_AWS_DRAW_ORDER] at h

theorem flatMap_perm_congr {α β : Type} (l : List α) (f g : α → List β)
    (h : ∀ i ∈ l, List.Perm (f i) (g i)) :
    List.Perm (l.flatMap f) (l.flatMap g) := by
  induction l with
  | nil => exact List.Perm.refl _
  | cons i rest ih =>
    rw [List.flatMap_cons, List.flatMap_cons]
    exact (h i (List.mem_cons_self _ _)).append
      (ih (fun j hj => h j (List.mem_cons_of_mem _ hj)))

theorem flatMap_filter_partition_perm (f : String → Nat) :
    ∀ (l : List Nat) (ns : List String), l.Nodup → (∀ n ∈ ns, f n ∈ l) →
      List.Perm (l.flatMap (fun i => ns.filter (fun n => f n = i))) ns := by
  intro l
  induction l with
  | nil =>
    intro ns _ h
    have hnil : ns = [] := by
      cases ns with
      | nil => rfl
      | cons x xs => exact absurd (h x (List.mem_cons_self _ _)) (by simp)
    subst hnil
    simp
  | cons i rest ih =>
    intro ns hnodup h
    rw [List.flatMap_cons]
    rw [List.nodup_cons] at hnodup
    have hstep : ∀ j ∈ rest,
        ns.filter (fun n => f n = j)
          = (ns.filter (fun n => decide (f n = i) = false)).filter (fun n => f n = j) := by
      intro j hj
      rw [List.filter_filter]
      apply List.filter_congr
      intro x _
      by_cases hx : f x = j
      · have hji : j ≠ i := by
          intro he
          exact hnodup.1 (he ▸ hj)
        have hne : decide (f x = i) = false := by simp [hx, hji]
        simp [hx, hne, hji]
      · simp [hx]
    have hrw : rest.flatMap (fun j => ns.filter (fun n => f n = j))
        = rest.flatMap (fun j =>
            (ns.filter (fun n => decide (f n = i) = false)).filter (fun n => f n = j)) :=
      List.flatMap_congr hstep
    rw [hrw]
    have hsub : ∀ n ∈ ns.filter (fun n => decide (f n = i) = false), f n ∈ rest := by
      intro n hn
      rw [List.mem_filter] at hn
      rcases List.mem_cons.mp (h n hn.1) with hx | hx
      · exact absurd hx (by simpa using hn.2)
      · exact hx
    have hperm2 := ih (ns.filter (fun n => decide (f n = i) = false)) hnodup.2 hsub
    have hfinal := List.Perm.append (List.Perm.refl (ns.filter (fun n => f n = i))) hperm2
    refine hfinal.trans ?_
    have := List.filter_append_perm (fun n => decide (f n = i)) ns
    have heq1 : ns.filter (fun n => decide (f n = i)) = ns.filter (fun n => f n = i) := rfl
    have heq2 : ns.filter (fun n => !(decide (f n = i)))
        = ns.filter (fun n => decide (f n = i) = false) := by
      apply List.filter_congr
      intro x _
      cases hx : decide (f x = i) <;> simp [hx]
    rw [heq1, heq2] at this
    exact this

theorem draw_order_nodes_perm (ns : List String) :
    List.Perm (draw_order_nodes ns) ns := by
  unfold draw_order_nodes
  rw [length_AWS_DRAW_ORDER]
  have h1 : List.Perm
      ((List.range 5).flatMap
        (fun i => (ns.filter (fun n => bucketIdx n = i)).insertionSort strLe))
      ((List.range 5).flatMap (fun i => ns.filter (fun n => bucketIdx n = i))) :=
    flatMap_perm_congr _ _ _
      (fun i _ => List.perm_insertionSort strLe _)
  refine h1.trans ?_
  exact flatMap_filter_partition_perm bucketIdx (List.range 5) ns
    (List.nodup_range 5) (fun n _ => List.mem_range.mpr (bucketIdx_lt n))

theorem jsonSerialize_sort (g : Graphdict) :
    jsonSerialize (sort_graphdict g) = sort_graphdict g := by
  unfold jsonSerialize sort_graphdict
  exact List.Sorted.insertionSort_eq (List.sorted_insertionSort keyLe _)

/-! ## The claims -/
/-- C1 as stated is false on the code: in the `draw` command the narrative
generator is not isolated from the engine.  With every dependency healthy
except the Ollama narrative service, `preflight_check` exits the program
before `compile_tfdata` ever runs, so the engine's finished graph — which
is perfectly well defined for the same source — is never produced; and
when the service is reachable, the emitted dictionary is the LLM's refined
JSON, not the engine's graph emitted unchanged, while a refinement failure
aborts with no output at all. -/
theorem C1_narrative_isolation_counterexample :
    draw envOllamaDown exSourceC1 = none
    ∧ (compile_tfdata exSourceC1).graphdict = [("aws_vpc.main", [])]
    ∧ draw envOllamaUp exSourceC1 = some [("llm.refined", [])]
    ∧ draw envLlmFail exSourceC1 = none := by
  refine ⟨rfl, by decide, by decide, rfl⟩

/-- C1 (amended): in the `draw` command, narrative generation is load
bearing rather than isolated: an unreachable narrative service makes
preflight exit before the engine produces any graph; a failed refinement
call aborts the run after compilation with nothing emitted; and on success
the graph handed to the renderer is the LLM's refined dictionary, which
replaces the engine's graphdict. -/
theorem C1_narrative_not_isolated (env : Env) (src : CompileSource) :
    (env.ollamaReachable = false → draw env src = none)
    ∧ (env.llmResult = none → draw env src = none)
    ∧ (∀ r, env.llmResult = some r → preflight_check env = true →
        draw env src = some r) := by
  refine ⟨?_, ?_, ?_⟩
  · intro h
    simp [draw, preflight_check, h]
  · intro h
    cases hp : preflight_check env <;> simp [draw, refine_with_llm, h, hp]
  · intro r h hp
    simp [draw, refine_with_llm, h, hp]

/-- Witness for C1 (amended) at concrete environments and a concrete
source. -/
theorem C1_narrative_not_isolated_witness :
    draw envOllamaDown exSourceC1 = none
    ∧ draw envLlmFail exSourceC1 = none
    ∧ draw envOllamaUp exSourceC1 = some [("llm.refined", [])] :=
  ⟨(C1_narrative_not_isolated envOllamaDown exSourceC1).1 rfl,
   (C1_narrative_not_isolated envLlmFail exSourceC1).2.1 rfl,
   (C1_narrative_not_isolated envOllamaUp exSourceC1).2.2 [("llm.refined", [])] rfl rfl⟩

/-- C2: the enrichment pipeline applies its stages in exactly the fixed
left-to-right order — relation building, consolidation, the annotation pass
(the §4.3 attribute-driven default), special-resource handling, variant
resolution, multi-instance expansion, arrow normalization, cycle removal —
each stage consuming the tfdata returned by the previous stage, and
`compile_tfdata` finishes with the deterministic sort of the resulting
graph dictionary. -/
theorem C2_stage_order :
    (∀ t : TfData, enrich_graph_data t
        = remove_recursive_links (reverse_relations (create_multiple_resources
            (handle_variants (handle_special_resources (add_annotations
              (consolidate_nodes (add_relations t))))))))
    ∧ (∀ t : TfData,
        (compile_finish t).graphdict = sort_graphdict (enrich_graph_data t).graphdict) :=
  ⟨enrich_graph_data_eq, graphdict_compile_finish⟩

/-- C3: for every raw input whose node identifiers are unique (a Python
dict guarantees this), the finished graph dictionary emitted by the
pipeline has unique identifiers, no repeated (origin, destination) pair,
and no dangling edges. -/
theorem C3_invariants (t : TfData) (h : NodupKeys t.graphdict) :
    NodupKeys (compile_finish t).graphdict
    ∧ NodupEdges (compile_finish t).graphdict
    ∧ NoDangling (compile_finish t).graphdict :=
  WF_compile_finish t h

set_option maxRecDepth 100000 in
/-- Witness for C3 at a concrete raw graph exercising deduplication,
dangling-edge dropping, consolidation, expansion and cycle removal. -/
theorem C3_invariants_witness :
    NodupKeys tC3.graphdict
    ∧ (NodupKeys (compile_finish tC3).graphdict
        ∧ NodupEdges (compile_finish tC3).graphdict
        ∧ NoDangling (compile_finish tC3).graphdict) :=
  ⟨by decide, C3_invariants tC3 (by decide)⟩

/-- C4: in the finished graph, every self-loop has been dropped
unconditionally, and for every remaining edge whose endpoints' types are
not in the always-draw-line exception set, the destination has no direct
or transitive path back to the origin (bounded search with the node count
as fuel, as §4.7 specifies). -/
theorem C4_cycle_removal (t : TfData) (h : NodupKeys t.graphdict) :
    (∀ o d, d ∈ succsOf (compile_finish t).graphdict o → d ≠ o)
    ∧ (∀ o d, d ∈ succsOf (compile_finish t).graphdict o →
        isExceptionEdge o d = false →
        reachB (compile_finish t).graphdict ((compile_finish t).graphdict).length d o
          = false) := by
  have hk : NodupKeys (enrich_graph_data t).graphdict := (WF_enrich_graph_data t h).1
  constructor
  · intro o d hd
    rw [graphdict_compile_finish] at hd
    have hd2 := (succs_sort_iff _ hk o d).mp hd
    rw [enrich_graph_data_eq] at hd2
    exact rrl_no_self_loops _ o d hd2
  · intro o d hd hexc
    rw [graphdict_compile_finish] at hd ⊢
    have hd2 := (succs_sort_iff _ hk o d).mp hd
    rw [length_sort_graphdict]
    have hF : reachB (enrich_graph_data t).graphdict
        ((enrich_graph_data t).graphdict).length d o = false := by
      rw [enrich_graph_data_eq] at hd2 ⊢
      exact rrl_acyclic _ o d hd2 hexc
    cases hR : reachB (sort_graphdict (enrich_graph_data t).graphdict)
        ((enrich_graph_data t).graphdict).length d o
    · rfl
    · exact absurd (reachB_mono _ _ (SubG_sort _ hk) _ d o hR) (by simp [hF])

set_option maxRecDepth 100000 in
/-- Witness for C4 at a concrete raw graph containing a two-node cycle and
a self-loop between non-exception resource types. -/
theorem C4_cycle_removal_witness :
    NodupKeys tC4.graphdict
    ∧ ((∀ o d, d ∈ succsOf (compile_finish tC4).graphdict o → d ≠ o)
        ∧ (∀ o d, d ∈ succsOf (compile_finish tC4).graphdict o →
            isExceptionEdge o d = false →
            reachB (compile_finish tC4).graphdict
              ((compile_finish tC4).graphdict).length d o = false)) :=
  ⟨by decide, C4_cycle_removal tC4 (by decide)⟩

/-- C5: serializing the finished graph with sorted keys (as the
`graphdata` command's JSON dump does) and re-ingesting the document as a
source reproduces the same GraphStore — identical nodes, edges and order —
and the compile path returns it without re-running enrichment. -/
theorem C5_round_trip (t : TfData) :
    jsonSerialize (compile_finish t).graphdict = (compile_finish t).graphdict
    ∧ compile_tfdata (CompileSource.json (JsonSource.plainGraph
        (jsonSerialize (compile_finish t).graphdict)))
      = { graphdict := (compile_finish t).graphdict,
          original_graphdict := [], meta_data := [] } := by
  have h1 : jsonSerialize (compile_finish t).graphdict = (compile_finish t).graphdict := by
    rw [graphdict_compile_finish]
    exact jsonSerialize_sort _
  refine ⟨h1, ?_⟩
  rw [h1]
  simp [compile_tfdata, load_json_source]

/-- C6: whenever the RuleTable lookup selects an entry for an identifier,
that entry's prefix matches, every matching entry in the table has a
prefix no longer than the selected one, and every entry declared before
the selected one that matches has a strictly shorter prefix — longest
matching prefix wins and equal lengths are resolved by declaration
order. -/
theorem C6_longest_match_wins (β : Type) (table : List (String × β)) (id0 : String)
    (e : String × β) (h : bestRule table id0 = some e) :
    strHasPrefix e.1 id0 = true
    ∧ (∀ x ∈ table, strHasPrefix x.1 id0 = true → x.1.length ≤ e.1.length)
    ∧ ∃ pre post, table = pre ++ e :: post
        ∧ (∀ x ∈ pre, strHasPrefix x.1 id0 = true → x.1.length < e.1.length) := by
  have hinv := bestRule_inv table id0
  rw [h] at hinv
  obtain ⟨⟨pre, post, hdec, hpre⟩, hm, hall⟩ := hinv
  exact ⟨hm, hall, pre, post, hdec, hpre⟩

/-- Witness for C6 on the actual rule tables: a subnet identifier is
matched by both the generic `aws_` special-resource binding and the longer
`aws_subnet` binding, and the longer one is selected; an EKS cluster
identifier is matched by two auto-annotation entries with equal-length
prefixes, and the earlier declaration is selected. -/
theorem C6_longest_match_wins_witness :
    bestRule AWS_SPECIAL_RESOURCES "aws_subnet.public" = some ("aws_subnet", "aws_handle_subnet_azs")
    ∧ (strHasPrefix "aws_subnet" "aws_subnet.public" = true
        ∧ (∀ x ∈ AWS_SPECIAL_RESOURCES, strHasPrefix x.1 "aws_subnet.public" = true →
            x.1.length ≤ ("aws_subnet", "aws_handle_subnet_azs").1.length)
        ∧ ∃ pre post, AWS_SPECIAL_RESOURCES = pre ++ ("aws_subnet", "aws_handle_subnet_azs") :: post
            ∧ (∀ x ∈ pre, strHasPrefix x.1 "aws_subnet.public" = true →
                x.1.length < ("aws_subnet", "aws_handle_subnet_azs").1.length))
    ∧ bestRule AWS_AUTO_ANNOTATIONS "aws_eks_cluster.main"
        = some ("aws_eks_cluster", ⟨["aws_eks_service.eks"], [], "reverse"⟩)
    ∧ (strHasPrefix "aws_eks_cluster" "aws_eks_cluster.main" = true
        ∧ (∀ x ∈ AWS_AUTO_ANNOTATIONS, strHasPrefix x.1 "aws_eks_cluster.main" = true →
            x.1.length ≤ ("aws_eks_cluster", (⟨["aws_eks_service.eks"], [], "reverse"⟩ : AnnotationRule)).1.length)
        ∧ ∃ pre post, AWS_AUTO_ANNOTATIONS
              = pre ++ ("aws_eks_cluster", ⟨["aws_eks_service.eks"], [], "reverse"⟩) :: post
            ∧ (∀ x ∈ pre, strHasPrefix x.1 "aws_eks_cluster.main" = true →
                x.1.length < ("aws_eks_cluster", (⟨["aws_eks_service.eks"], [], "reverse"⟩ : AnnotationRule)).1.length)) := by
  refine ⟨by decide,
    C6_longest_match_wins String AWS_SPECIAL_RESOURCES "aws_subnet.public"
      ("aws_subnet", "aws_handle_subnet_azs") (by decide),
    by decide,
    C6_longest_match_wins AnnotationRule AWS_AUTO_ANNOTATIONS "aws_eks_cluster.main"
      ("aws_eks_cluster", ⟨["aws_eks_service.eks"], [], "reverse"⟩) (by decide)⟩

/-- C7: the special-resource handler table is evaluated exactly once per
pipeline run as a single left fold over the declared bindings, so each
handler is applied once in declared order; in that order the handler that
associates subnets with availability zones strictly precedes the handler
that binds security groups to subnets, which therefore observes the zone
assignments already placed in the GraphStore. -/
theorem C7_handler_order :
    applySpecialBindings (fun e acc => acc ++ [e.2]) ([] : List String)
      = ["aws_handle_cloudfront_pregraph", "aws_handle_subnet_azs",
         "aws_handle_autoscaling", "aws_handle_efs", "aws_handle_dbsubnet",
         "aws_handle_sg", "aws_handle_lb", "aws_handle_vpcendpoints",
         "aws_handle_sharedgroup", "random_string_handler"]
    ∧ (∀ t : TfData, handle_special_resources t
        = AWS_SPECIAL_RESOURCES.foldl (fun acc e => dispatchHandler e.2 acc) t)
    ∧ ∃ pre mid post, AWS_SPECIAL_RESOURCES
        = pre ++ ("aws_subnet", "aws_handle_subnet_azs")
            :: (mid ++ ("aws_security_group", "aws_handle_sg") :: post) := by
  refine ⟨by decide, tfdata_handle_special_resources, ?_⟩
  exact ⟨[("aws_cloudfront_distribution", "aws_handle_cloudfront_pregraph")],
    [("aws_appautoscaling_target", "aws_handle_autoscaling"),
     ("aws_efs_file_system", "aws_handle_efs"),
     ("aws_db_subnet", "aws_handle_dbsubnet")],
    [("aws_lb", "aws_handle_lb"),
     ("aws_vpc_endpoint", "aws_handle_vpcendpoints"),
     ("aws_", "aws_handle_sharedgroup"),
     ("random_string", "random_string_handler")], by decide⟩

/-- C8: for an edge into a node whose type is matched both by
`aws_rds_aurora` in the reverse-arrow list and by `aws_rds` in the
forced-destination list, the reverse rule class swaps the edge and the
forced-destination rule class, applied after it, swaps it back, leaving
the destination-forced orientation; the direction-confirmed flag is then
set, and a confirmed edge is never swapped again. -/
theorem C8_direction_rules :
    (∀ e : DirEdge, normalizeEdge { e with confirmed := true } = { e with confirmed := true })
    ∧ applyReverseRule ⟨"aws_s3_bucket.data", "aws_rds_aurora.db", false⟩
        = ⟨"aws_rds_aurora.db", "aws_s3_bucket.data", false⟩
    ∧ applyForcedDestRule ⟨"aws_rds_aurora.db", "aws_s3_bucket.data", false⟩
        = ⟨"aws_s3_bucket.data", "aws_rds_aurora.db", false⟩
    ∧ normalizeEdge ⟨"aws_s3_bucket.data", "aws_rds_aurora.db", false⟩
        = ⟨"aws_s3_bucket.data", "aws_rds_aurora.db", true⟩
    ∧ normalizeEdge ⟨"aws_s3_bucket.data", "aws_rds_aurora.db", true⟩
        = ⟨"aws_s3_bucket.data", "aws_rds_aurora.db", true⟩ := by
  refine ⟨?_, by decide, by decide, by decide, by decide⟩
  intro e
  simp [normalizeEdge]

/-- C9: the final node enumeration is the concatenation of the five
precedence buckets — outer-boundary, edge/ingress, container/group,
consolidated, everything-else — in exactly that order, every node falls
into one of the five buckets as decided by the RuleTable classification
lists alone, each bucket is ordered by identifier, and the enumeration is
a permutation of the input node set. -/
theorem C9_draw_order (ns : List String) :
    List.Perm (draw_order_nodes ns) ns
    ∧ draw_order_nodes ns
        = (ns.filter (fun n => bucketIdx n = 0)).insertionSort strLe
          ++ (ns.filter (fun n => bucketIdx n = 1)).insertionSort strLe
          ++ (ns.filter (fun n => bucketIdx n = 2)).insertionSort strLe
          ++ (ns.filter (fun n => bucketIdx n = 3)).insertionSort strLe
          ++ (ns.filter (fun n => bucketIdx n = 4)).insertionSort strLe
    ∧ (∀ n : String, bucketIdx n < 5)
    ∧ (∀ i : Nat, List.Sorted strLe ((ns.filter (fun n => bucketIdx n = i)).insertionSort strLe)) := by
  refine ⟨draw_order_nodes_perm ns, ?_, bucketIdx_lt,
    fun i => List.sorted_insertionSort strLe _⟩
  unfold draw_order_nodes
  rw [length_AWS_DRAW_ORDER]
  have hr : List.range 5 = [0, 1, 2, 3, 4] := rfl
  rw [hr]
  simp [List.flatMap_cons, List.flatMap_nil]

/-- C10: loading a JSON tfdata file containing `all_resource` rebinds the
working graph dictionary to the stored original (unprocessed) dictionary
and reports the data as unprocessed, so compilation re-runs the full
enrichment pipeline from the raw graph rather than from the enriched graph
saved in the same file; a JSON document without that key is returned as
the finished graph dictionary with no enrichment applied. -/
theorem C10_json_loading :
    (∀ d : TfData,
       load_json_source (JsonSource.withAllResource d)
         = ({ d with graphdict := d.original_graphdict }, false)
       ∧ compile_tfdata (CompileSource.json (JsonSource.withAllResource d))
         = compile_finish { d with graphdict := d.original_graphdict })
    ∧ (∀ g : Graphdict,
       load_json_source (JsonSource.plainGraph g)
         = ({ graphdict := g, original_graphdict := [], meta_data := [] }, true)
       ∧ compile_tfdata (CompileSource.json (JsonSource.plainGraph g))
         = { graphdict := g, original_graphdict := [], meta_data := [] }) := by
  constructor
  · intro d
    exact ⟨rfl, rfl⟩
  · intro g
    exact ⟨rfl, rfl⟩

end Terravision
